import Mathlib

/-!
Verification of the legal-knowledge-graph extraction pipeline.

This file shallowly embeds the deterministic core of the repository
(`src/document_parser/parser.py`, `src/document_parser/rules.py`,
`src/langgraph_agents/qa_agent.py`, `src/langgraph_agents/graph.py`,
`src/langgraph_agents/coref_agent.py`,
`src/langgraph_agents/relation_norm_agent.py`,
`src/normalization/normalizer.py`, `src/normalization/segmenter.py`)
and proves or refutes the specified properties.

Modelling conventions:
* Python text is `List Char`; `len` is `List.length`.
* Python floats that only ever hold small decimal constants and are compared
  or multiplied exactly are modelled as `ℚ`.
* External collaborators (the pkuseg tokenizer, the JSON parser, the
  dictionary alias table) are abstracted as function parameters, so every
  theorem quantifying over them also holds for the concrete instances.
-/

namespace LegalKG

/-! ## Document parser (`src/document_parser/parser.py`, `rules.py`) -/

/-- Characters stripped by Python `str.strip()` (whitespace): the ASCII
whitespace characters plus the ideographic space, which are the only
whitespace characters that can appear in the texts handled here. -/
def isPySpace (c : Char) : Bool :=
  c == ' ' || c == '\t' || c == '\n' || c == '\r' ||
  c == '\x0b' || c == '\x0c' || c == '　'

/-- Remove trailing whitespace (the second half of Python `str.strip()`). -/
def dropTrailing (l : List Char) : List Char :=
  ((l.reverse).dropWhile isPySpace).reverse

/-- Python `str.strip()`. -/
def stripChars (l : List Char) : List Char :=
  dropTrailing (l.dropWhile isPySpace)

/-- Emit a run of `k` consecutive newlines after the substitution
`re.sub(r'\n{3,}', '\n\n', text)`: runs of three or more newlines are
collapsed to exactly two. -/
def emitNewlines (k : Nat) : List Char :=
  List.replicate (min k 2) '\n'

/-- Scanner for the newline-collapsing substitution in
`DocumentParser._clean_text`; `k` counts pending newlines. -/
def collapseAux : Nat → List Char → List Char
  | k, [] => emitNewlines k
  | k, c :: rest =>
    if c = '\n' then collapseAux (k + 1) rest
    else emitNewlines k ++ c :: collapseAux 0 rest

/-- `re.sub(r'\n{3,}', '\n\n', text)` from `DocumentParser._clean_text`. -/
def collapseNewlines (s : List Char) : List Char :=
  collapseAux 0 s

/-- Python `text.split('\n')`. -/
def splitLinesCh : List Char → List (List Char)
  | [] => [[]]
  | c :: rest =>
    if c = '\n' then [] :: splitLinesCh rest
    else
      match splitLinesCh rest with
      | l :: ls => (c :: l) :: ls
      | [] => [[c]]

/-- Python `'\n'.join(lines)`. -/
def joinLines : List (List Char) → List Char
  | [] => []
  | [l] => l
  | l :: ls => l ++ '\n' :: joinLines ls

/-- `DocumentParser._clean_text`: collapse newline runs, strip each line,
and strip the result. -/
def cleanText (s : List Char) : List Char :=
  stripChars (joinLines ((splitLinesCh (collapseNewlines s)).map stripChars))

/-- The heading-phrase vocabulary of `LEGAL_SECTION_PATTERNS` in
`src/document_parser/rules.py`, in dictionary order.  Each regular
expression `^【?(k1|k2|…).*?】?$` matches a line exactly when the line
starts with one of the phrases `ki`, optionally preceded by `【`. -/
def sectionKeywords : List (String × List String) :=
  [ ("CASE_INFO", ["案件", "法院", "当事人", "审理", "案号"]),
    ("CLAIM", ["诉讼请求", "原告诉称", "诉讼请求内容"]),
    ("FACT", ["案件事实", "事实经过", "查明事实", "经审理查明"]),
    ("DEFENSE", ["被告答辩", "被告辩称", "答辩意见"]),
    ("EVIDENCE", ["证据", "证据认定", "证据分析"]),
    ("REASONING", ["判决理由", "本院认为", "理由"]),
    ("JUDGMENT", ["判决结果", "判决如下", "裁判结果", "判决"]),
    ("PROCEDURE", ["审理经过", "审理过程", "诉讼过程"]),
    ("COST", ["诉讼费用", "费用承担"]) ]

/-- One pattern of `LEGAL_SECTION_PATTERNS`: the stripped line matches
`^【?(k1|…|kn).*?】?$` iff some keyword (optionally preceded by `【`)
starts the line. -/
def matchesKeywordList (kws : List String) (t : List Char) : Bool :=
  kws.any fun k => (k.data).isPrefixOf t || ('【' :: k.data).isPrefixOf t

/-- First-match scan over the pattern table in `is_legal_section`. -/
def isLegalSectionAux : List (String × List String) → List Char → Bool × String
  | [], _ => (false, "OTHER")
  | (bt, kws) :: rest, t =>
    if matchesKeywordList kws t then (true, bt) else isLegalSectionAux rest t

/-- `rules.is_legal_section`. -/
def isLegalSection (line : List Char) : Bool × String :=
  isLegalSectionAux sectionKeywords (stripChars line)

/-- The CJK ordinal numerals used by the hierarchy-numbering patterns. -/
def isCJKOrd (c : Char) : Bool :=
  c == '一' || c == '二' || c == '三' || c == '四' || c == '五' ||
  c == '六' || c == '七' || c == '八' || c == '九' || c == '十'

def isDigit19 (c : Char) : Bool := '1' ≤ c && c ≤ '9'

def isDigit09 (c : Char) : Bool := '0' ≤ c && c ≤ '9'

/-- `HIERARCHY_PATTERNS[0]`: `^([一二三四五六七八九十]+)、(.+)$`. -/
def hierPattern1 (t : List Char) : Bool :=
  let a := t.takeWhile isCJKOrd
  !a.isEmpty &&
    (match t.drop a.length with
     | c :: rest => c == '、' && !rest.isEmpty
     | [] => false)

/-- `HIERARCHY_PATTERNS[1]`: `^(（[一二三四五六七八九十]+）)、(.+)$`. -/
def hierPattern2 (t : List Char) : Bool :=
  match t with
  | c :: u =>
    c == '（' &&
      (let a := u.takeWhile isCJKOrd
       !a.isEmpty &&
         (match u.drop a.length with
          | c1 :: c2 :: rest => c1 == '）' && c2 == '、' && !rest.isEmpty
          | _ => false))
  | [] => false

/-- `HIERARCHY_PATTERNS[2]`: `^([1-9]\d*)[.、](.+)$`. -/
def hierPattern3 (t : List Char) : Bool :=
  match t with
  | c :: rest =>
    isDigit19 c &&
      (let ds := rest.takeWhile isDigit09
       match rest.drop ds.length with
       | d :: r2 => (d == '.' || d == '、') && !r2.isEmpty
       | [] => false)
  | [] => false

/-- `HIERARCHY_PATTERNS[3]`: `^\([1-9]\d*\)(.+)$`. -/
def hierPattern4 (t : List Char) : Bool :=
  match t with
  | c :: u =>
    c == '(' &&
      (match u with
       | c1 :: v =>
         isDigit19 c1 &&
           (let ds := v.takeWhile isDigit09
            match v.drop ds.length with
            | d :: r2 => d == ')' && !r2.isEmpty
            | [] => false)
       | [] => false)
  | [] => false

/-- `rules.identify_hierarchy_level`: 1 + the index of the first numbering
pattern matching the stripped text, or 0. -/
def identifyHierarchyLevel (t : List Char) : Nat :=
  let s := stripChars t
  if hierPattern1 s then 1
  else if hierPattern2 s then 2
  else if hierPattern3 s then 3
  else if hierPattern4 s then 4
  else 0

/-- `DocumentParser._identify_sections`, scanning lines with a running
character offset (`current_pos += len(line) + 1`). -/
def identifySectionsAux : List (List Char) → Nat → List (Nat × List Char × String)
  | [], _ => []
  | line :: rest, pos =>
    if stripChars line = [] then identifySectionsAux rest (pos + line.length + 1)
    else if (isLegalSection line).1 = true then
      (pos, stripChars line, (isLegalSection line).2) ::
        identifySectionsAux rest (pos + line.length + 1)
    else identifySectionsAux rest (pos + line.length + 1)

def identifySections (t : List Char) : List (Nat × List Char × String) :=
  identifySectionsAux (splitLinesCh t) 0

/-- `DocumentBlock` from `src/document_parser/parser.py`.  Block ids are the
values of the sequential counter behind `_generate_block_id`. -/
structure DocumentBlock where
  blockId : Nat
  blockType : String
  title : List Char
  content : List Char
  startPos : Nat
  endPos : Nat
  level : Nat
  parentId : Option Nat
deriving DecidableEq, Repr, Inhabited

/-- The per-section loop of `DocumentParser._build_blocks`; `idx` is the next
block id. -/
def sectionBlocks (text : List Char) :
    List (Nat × List Char × String) → Nat → List DocumentBlock
  | [], _ => []
  | (pos, title, bt) :: rest, idx =>
    let stop := match rest with
      | (np, _, _) :: _ => np
      | [] => text.length
    let content := stripChars ((text.drop (pos + title.length)).take (stop - (pos + title.length)))
    { blockId := idx, blockType := bt, title := title, content := content,
      startPos := pos, endPos := stop,
      level := identifyHierarchyLevel title, parentId := none } ::
      sectionBlocks text rest (idx + 1)

/-- `DocumentParser._build_blocks`: an optional leading OTHER block for a
non-blank prefix before the first heading, then one block per section. -/
def buildBlocks (sections : List (Nat × List Char × String)) (text : List Char) :
    List DocumentBlock :=
  match sections with
  | [] => []
  | (p0, _, _) :: _ =>
    if 0 < p0 ∧ stripChars (text.take p0) ≠ [] then
      { blockId := 1, blockType := "OTHER", title := "文档开头".data,
        content := stripChars (text.take p0), startPos := 0, endPos := p0,
        level := 0, parentId := none } :: sectionBlocks text sections 2
    else sectionBlocks text sections 1

/-- Stable insertion by `startPos` (Python's stable `sorted(key=start_pos)`):
the inserted element precedes every element with an equal or larger key,
which preserves the original order of equal keys. -/
def insertByStart (b : DocumentBlock) : List DocumentBlock → List DocumentBlock
  | [] => [b]
  | x :: xs => if b.startPos ≤ x.startPos then b :: x :: xs else x :: insertByStart b xs

def sortByStart : List DocumentBlock → List DocumentBlock
  | [] => []
  | b :: bs => insertByStart b (sortByStart bs)

/-- The stack pass of `DocumentParser._build_hierarchy`, returning the parent
assignment for each level-positive block.  The stack top is the list head. -/
def hierarchyFold : List DocumentBlock → List (Nat × Nat) → List (Nat × Option Nat)
  | [], _ => []
  | b :: rest, stack =>
    let popped := stack.dropWhile fun e => b.level ≤ e.2
    (b.blockId, popped.head?.map (·.1)) ::
      hierarchyFold rest ((b.blockId, b.level) :: popped)

/-- Apply the parent assignment computed by `hierarchyFold` to one block:
only blocks with positive level are mutated, and only their `parent_id`. -/
def applyAssign (assigns : List (Nat × Option Nat)) (b : DocumentBlock) : DocumentBlock :=
  if 0 < b.level then
    match (assigns.find? fun a => a.1 == b.blockId).bind (·.2) with
    | some p => { b with parentId := some p }
    | none => b
  else b

/-- `DocumentParser._build_hierarchy`: assign parents to blocks with positive
level; other blocks are untouched. -/
def buildHierarchy (blocks : List DocumentBlock) : List DocumentBlock :=
  blocks.map (applyAssign (hierarchyFold (sortByStart (blocks.filter fun b => 0 < b.level)) []))

/-- `DocumentParser.parse`: clean, identify sections, build blocks, build
hierarchy. -/
def parse (text : List Char) : List DocumentBlock :=
  buildHierarchy (buildBlocks (identifySections (cleanText text)) (cleanText text))

/-- Contiguous-coverage predicate: the blocks tile `[s, e)` in order, each
block starting where the previous one ended. -/
def spanChainB : Nat → List DocumentBlock → Nat → Bool
  | s, [], e => s == e
  | s, b :: rest, e => (b.startPos == s) && spanChainB b.endPos rest e

/-! ### Lemmas about stripping -/

theorem mem_dropWhile_of_mem {p : Char → Bool} {l : List Char} {x : Char}
    (hx : x ∈ l) (hpx : p x = false) : x ∈ l.dropWhile p := by
  induction l with
  | nil => cases hx
  | cons a rest ih =>
    rw [List.dropWhile_cons]
    by_cases ha : p a = true
    · simp only [ha, if_true]
      rcases List.mem_cons.mp hx with rfl | hmem
      · rw [ha] at hpx; cases hpx
      · exact ih hmem
    · simp only [ha, if_false]
      exact hx

theorem dropTrailing_ne_nil {l : List Char} {x : Char}
    (hx : x ∈ l) (hpx : isPySpace x = false) : dropTrailing l ≠ [] := by
  unfold dropTrailing
  intro h
  have hx' : x ∈ l.reverse.dropWhile isPySpace :=
    mem_dropWhile_of_mem (List.mem_reverse.mpr hx) hpx
  rw [List.reverse_eq_nil_iff] at h
  rw [h] at hx'
  cases hx'

theorem stripChars_ne_nil {l : List Char} {x : Char}
    (hx : x ∈ l) (hpx : isPySpace x = false) : stripChars l ≠ [] :=
  dropTrailing_ne_nil (mem_dropWhile_of_mem hx hpx) hpx

theorem head?_dropWhile {p : Char → Bool} {l : List Char} {c : Char}
    (h : (l.dropWhile p).head? = some c) : p c = false := by
  induction l with
  | nil => cases h
  | cons a rest ih =>
    rw [List.dropWhile_cons] at h
    by_cases ha : p a = true
    · rw [if_pos ha] at h
      exact ih h
    · rw [if_neg ha, List.head?_cons] at h
      injection h with h
      rw [← h]
      exact Bool.eq_false_iff.mpr ha

theorem exists_append_dropWhile (p : Char → Bool) (l : List Char) :
    ∃ u, u ++ l.dropWhile p = l := by
  induction l with
  | nil => exact ⟨[], rfl⟩
  | cons a rest ih =>
    rw [List.dropWhile_cons]
    by_cases ha : p a = true
    · simp only [ha, if_true]
      obtain ⟨u, hu⟩ := ih
      exact ⟨a :: u, by simp [hu]⟩
    · simp only [ha, if_false]
      exact ⟨[], rfl⟩

theorem head?_dropTrailing {l : List Char} {c : Char}
    (h : (dropTrailing l).head? = some c) : l.head? = some c := by
  obtain ⟨u, hu⟩ := exists_append_dropWhile isPySpace l.reverse
  unfold dropTrailing at h
  cases hd : l.reverse.dropWhile isPySpace with
  | nil =>
    rw [hd] at h
    cases h
  | cons a t =>
    rw [hd] at h hu
    have hl : l = (a :: t).reverse ++ u.reverse := by
      have h2 := congrArg List.reverse hu
      rw [List.reverse_reverse, List.reverse_append] at h2
      exact h2.symm
    cases hr : (a :: t).reverse with
    | nil => simp at hr
    | cons c0 t0 =>
      rw [hr] at h
      rw [List.head?_cons] at h
      injection h with h
      rw [hl, hr, List.cons_append, List.head?_cons, h]

theorem stripChars_head? {l : List Char} {c : Char}
    (h : (stripChars l).head? = some c) : isPySpace c = false :=
  head?_dropWhile (head?_dropTrailing h)

/-! ### C1-C2: segmentation coverage -/

theorem identifySectionsAux_nil_of_no_heading {lines : List (List Char)} {pos : Nat}
    (h : ∀ line ∈ lines, (isLegalSection line).1 = false) :
    identifySectionsAux lines pos = [] := by
  induction lines generalizing pos with
  | nil => rfl
  | cons line rest ih =>
    have hline := h line (List.mem_cons_self _ _)
    have hrest : ∀ l ∈ rest, (isLegalSection l).1 = false :=
      fun l hl => h l (List.mem_cons_of_mem _ hl)
    unfold identifySectionsAux
    by_cases hs : stripChars line = []
    · rw [if_pos hs]
      exact ih hrest
    · rw [if_neg hs, if_neg (by rw [hline]; exact Bool.false_ne_true)]
      exact ih hrest

theorem buildHierarchy_nil : buildHierarchy [] = [] := rfl

/-- C1 (amended): if no line of the cleaned text matches any heading pattern,
`DocumentParser.parse` returns the empty block list (not a single OTHER
block: the leading-OTHER branch of `_build_blocks` only runs when at least
one section was found). -/
theorem c1_no_heading_returns_no_blocks (t : List Char)
    (h : ∀ line ∈ splitLinesCh (cleanText t), (isLegalSection line).1 = false) :
    parse t = [] := by
  unfold parse identifySections
  rw [identifySectionsAux_nil_of_no_heading h]
  rfl

/-- C1, claim as stated is false: on the heading-free input `"你好"` the
cleaned text is the nonempty `"你好"`, yet `parse` returns zero blocks
rather than a single OTHER block spanning the whole text. -/
theorem c1_counterexample :
    (∀ line ∈ splitLinesCh (cleanText ("你好".data)), (isLegalSection line).1 = false) ∧
      parse ("你好".data) = [] ∧ cleanText ("你好".data) ≠ [] :=
  ⟨by decide, by decide, by decide⟩

/-- Witness for `c1_no_heading_returns_no_blocks` at the input `"你好"`. -/
theorem c1_no_heading_returns_no_blocks_witness :
    (∀ line ∈ splitLinesCh (cleanText ("你好".data)), (isLegalSection line).1 = false) ∧
      parse ("你好".data) = [] :=
  ⟨by decide, c1_no_heading_returns_no_blocks _ (by decide)⟩

theorem spanChainB_nil (s e : Nat) : spanChainB s [] e = (s == e) := rfl

theorem spanChainB_cons (s e : Nat) (b : DocumentBlock) (rest : List DocumentBlock) :
    spanChainB s (b :: rest) e = ((b.startPos == s) && spanChainB b.endPos rest e) := rfl

theorem spanChainB_sectionBlocks (text : List Char) (rest : List (Nat × List Char × String))
    (pos : Nat) (title : List Char) (bt : String) (idx : Nat) :
    spanChainB pos (sectionBlocks text ((pos, title, bt) :: rest) idx) text.length = true := by
  induction rest generalizing pos title bt idx with
  | nil =>
    show spanChainB pos [_] text.length = true
    rw [spanChainB_cons, spanChainB_nil]
    simp
  | cons nxt r2 ih =>
    obtain ⟨np, t2, b2⟩ := nxt
    show spanChainB pos (_ :: sectionBlocks text ((np, t2, b2) :: r2) (idx + 1))
      text.length = true
    rw [spanChainB_cons]
    simp only [beq_self_eq_true, Bool.true_and]
    exact ih np t2 b2 (idx + 1)

theorem applyAssign_startPos (assigns : List (Nat × Option Nat)) (b : DocumentBlock) :
    (applyAssign assigns b).startPos = b.startPos := by
  unfold applyAssign
  by_cases hb : 0 < b.level
  · rw [if_pos hb]
    cases (assigns.find? fun a => a.1 == b.blockId).bind (·.2) <;> rfl
  · rw [if_neg hb]

theorem applyAssign_endPos (assigns : List (Nat × Option Nat)) (b : DocumentBlock) :
    (applyAssign assigns b).endPos = b.endPos := by
  unfold applyAssign
  by_cases hb : 0 < b.level
  · rw [if_pos hb]
    cases (assigns.find? fun a => a.1 == b.blockId).bind (·.2) <;> rfl
  · rw [if_neg hb]

theorem spanChainB_map_assign (assigns : List (Nat × Option Nat))
    (s e : Nat) (bs : List DocumentBlock) :
    spanChainB s (bs.map (applyAssign assigns)) e = spanChainB s bs e := by
  induction bs generalizing s with
  | nil => rfl
  | cons b rest ih =>
    rw [List.map_cons, spanChainB_cons, spanChainB_cons,
      applyAssign_startPos, applyAssign_endPos, ih]

theorem spanChainB_buildHierarchy (s e : Nat) (bs : List DocumentBlock) :
    spanChainB s (buildHierarchy bs) e = spanChainB s bs e := by
  unfold buildHierarchy
  exact spanChainB_map_assign _ s e bs

theorem buildBlocks_cons (p0 : Nat) (title : List Char) (bt : String)
    (rest : List (Nat × List Char × String)) (text : List Char) :
    buildBlocks ((p0, title, bt) :: rest) text =
      if 0 < p0 ∧ stripChars (text.take p0) ≠ [] then
        { blockId := 1, blockType := "OTHER", title := "文档开头".data,
          content := stripChars (text.take p0), startPos := 0, endPos := p0,
          level := 0, parentId := none } :: sectionBlocks text ((p0, title, bt) :: rest) 2
      else sectionBlocks text ((p0, title, bt) :: rest) 1 := rfl

theorem sections_nonempty_clean_ne_nil {t : List Char}
    (h : identifySections (cleanText t) ≠ []) : cleanText t ≠ [] := by
  intro hc
  apply h
  unfold identifySections
  rw [hc]
  decide

/-- C2 (amended): whenever at least one heading is found, the block sequence
returned by `parse` tiles the cleaned text with no gaps or overlaps: the
first block starts at 0, each block ends where the next begins, and the last
block ends at the length of the cleaned text.  (When no heading is found the
block list is empty and covers nothing; see `c2_counterexample`.) -/
theorem c2_blocks_partition_text (t : List Char)
    (h : identifySections (cleanText t) ≠ []) :
    spanChainB 0 (parse t) (cleanText t).length = true := by
  have hct : cleanText t ≠ [] := sections_nonempty_clean_ne_nil h
  unfold parse
  rw [spanChainB_buildHierarchy]
  cases hsecs : identifySections (cleanText t) with
  | nil => exact absurd hsecs h
  | cons first rest =>
    obtain ⟨p0, title, bt⟩ := first
    rw [buildBlocks_cons]
    by_cases hp : 0 < p0 ∧ stripChars ((cleanText t).take p0) ≠ []
    · rw [if_pos hp, spanChainB_cons]
      simp only [beq_self_eq_true, Bool.true_and]
      exact spanChainB_sectionBlocks _ _ _ _ _ _
    · rw [if_neg hp]
      have hp0 : p0 = 0 := by
        by_contra hne
        apply hp
        have hpos : 0 < p0 := Nat.pos_of_ne_zero hne
        refine ⟨hpos, ?_⟩
        obtain ⟨c, ct', hct'⟩ : ∃ c ct', cleanText t = c :: ct' := by
          cases hc : cleanText t with
          | nil => exact absurd hc hct
          | cons c ct' => exact ⟨c, ct', rfl⟩
        have hhead : (cleanText t).head? = some c := by rw [hct']; rfl
        have hc_ns : isPySpace c = false := stripChars_head? (l := joinLines
          ((splitLinesCh (collapseNewlines t)).map stripChars)) hhead
        have hmem : c ∈ (cleanText t).take p0 := by
          rw [hct']
          cases p0 with
          | zero => cases hpos
          | succ n => simp [List.take_succ_cons]
        exact stripChars_ne_nil hmem hc_ns
      subst hp0
      exact spanChainB_sectionBlocks _ _ _ _ _ _

/-- C2, claim as stated is false: on the heading-free input `"你好"` the
cleaned text has length 2 but `parse` returns no blocks, so the block spans
do not reconstruct the cleaned text. -/
theorem c2_counterexample :
    spanChainB 0 (parse ("你好".data)) (cleanText ("你好".data)).length = false := by
  decide

/-- Witness for `c2_blocks_partition_text` at the input `"诉讼请求\n张三"`. -/
theorem c2_blocks_partition_text_witness :
    identifySections (cleanText ("诉讼请求\n张三".data)) ≠ [] ∧
      spanChainB 0 (parse ("诉讼请求\n张三".data))
        (cleanText ("诉讼请求\n张三".data)).length = true :=
  ⟨by decide, c2_blocks_partition_text _ (by decide)⟩

/-! ### C8: parent links in the block hierarchy

Heading lines must start with a section keyword (or `【`), while the
numbering patterns of `identify_hierarchy_level` require the line to start
with a CJK ordinal, a digit, or a parenthesis.  The two sets of first
characters are disjoint, so every block produced by `parse` has level 0 and
the parent-link property holds for every input. -/

/-- First characters accepted by one of the four numbering patterns. -/
def hierStartOK (c : Char) : Bool :=
  isCJKOrd c || c == '（' || isDigit19 c || c == '('

theorem isPrefixOf_head? {l t : List Char} (h : l.isPrefixOf t = true)
    (hl : l ≠ []) : t.head? = l.head? := by
  cases l with
  | nil => exact absurd rfl hl
  | cons a l' =>
    cases t with
    | nil => cases h
    | cons b t' =>
      simp only [List.isPrefixOf_cons₂, Bool.and_eq_true, beq_iff_eq] at h
      rw [List.head?_cons, List.head?_cons, h.1]

theorem takeWhile_cons_false {p : Char → Bool} {a : Char} (l : List Char)
    (ha : p a = false) : (a :: l).takeWhile p = [] := by
  rw [List.takeWhile_cons, ha]
  rfl

theorem hierPatterns_false_of_head (h : Char) (tl : List Char)
    (hok : hierStartOK h = false) :
    hierPattern1 (h :: tl) = false ∧ hierPattern2 (h :: tl) = false ∧
      hierPattern3 (h :: tl) = false ∧ hierPattern4 (h :: tl) = false := by
  have h1 : isCJKOrd h = false := by
    revert hok; unfold hierStartOK; cases isCJKOrd h <;> simp
  have h2 : (h == '（') = false := by
    revert hok; unfold hierStartOK; cases h == '（' <;> simp
  have h3 : isDigit19 h = false := by
    revert hok; unfold hierStartOK; cases isDigit19 h <;> simp
  have h4 : (h == '(') = false := by
    revert hok; unfold hierStartOK; cases h == '(' <;> simp
  refine ⟨?_, ?_, ?_, ?_⟩
  · show (!((h :: tl).takeWhile isCJKOrd).isEmpty && _) = false
    rw [takeWhile_cons_false _ h1]
    rfl
  · show (h == '（' && _) = false
    rw [h2]
    rfl
  · show (isDigit19 h && _) = false
    rw [h3]
    rfl
  · show (h == '(' && _) = false
    rw [h4]
    rfl

theorem head?_dropTrailing_of_ne_nil {m : List Char} (h : dropTrailing m ≠ []) :
    (dropTrailing m).head? = m.head? := by
  obtain ⟨u, hu⟩ := exists_append_dropWhile isPySpace m.reverse
  cases hr : dropTrailing m with
  | nil => exact absurd hr h
  | cons x y =>
    unfold dropTrailing at hr
    have hD : m.reverse.dropWhile isPySpace = (x :: y).reverse := by
      rw [← hr, List.reverse_reverse]
    rw [hD] at hu
    have hm : m = x :: (y ++ u.reverse) := by
      have h2 := congrArg List.reverse hu
      rw [List.reverse_reverse, List.reverse_append, List.reverse_reverse] at h2
      exact h2.symm
    rw [hm]
    rfl

/-- Head of the double strip: stripping an already nonempty stripped list
keeps its (non-whitespace) head. -/
theorem head?_stripChars_stripChars {line : List Char} {h : Char}
    (hh : (stripChars line).head? = some h) :
    (stripChars (stripChars line)).head? = some h := by
  have hns : isPySpace h = false := stripChars_head? hh
  obtain ⟨tl, htl⟩ : ∃ tl, stripChars line = h :: tl := by
    cases hc : stripChars line with
    | nil => rw [hc] at hh; cases hh
    | cons a tl =>
      rw [hc, List.head?_cons] at hh
      injection hh with hh
      exact ⟨tl, by rw [hh]⟩
  rw [htl]
  show (dropTrailing ((h :: tl).dropWhile isPySpace)).head? = some h
  rw [List.dropWhile_cons, if_neg (by rw [hns]; exact Bool.false_ne_true)]
  have hne : dropTrailing (h :: tl) ≠ [] :=
    dropTrailing_ne_nil (List.mem_cons_self _ _) hns
  rw [head?_dropTrailing_of_ne_nil hne]
  rfl

/-- A keyword is safe when it is nonempty and its first character is not one
accepted by any numbering pattern. -/
def keywordHeadSafe (k : String) : Bool :=
  match k.data with
  | c :: _ => !hierStartOK c
  | [] => false

/-- Every keyword of the section table begins with a character that no
numbering pattern accepts. -/
theorem sectionKeywords_head_not_hier :
    ∀ pr ∈ sectionKeywords, ∀ k ∈ pr.2, keywordHeadSafe k = true := by
  decide

theorem matchesKeywordList_head {kws : List String} {t : List Char}
    (hm : matchesKeywordList kws t = true)
    (hkw : ∀ k ∈ kws, keywordHeadSafe k = true) :
    ∃ h, t.head? = some h ∧ hierStartOK h = false := by
  unfold matchesKeywordList at hm
  obtain ⟨k, hk, hpre⟩ := List.any_eq_true.mp hm
  have hk' := hkw k hk
  obtain ⟨c, kd, hkd⟩ : ∃ c kd, k.data = c :: kd := by
    cases hc : k.data with
    | nil =>
      unfold keywordHeadSafe at hk'
      rw [hc] at hk'
      cases hk'
    | cons c kd => exact ⟨c, kd, rfl⟩
  have hok : hierStartOK c = false := by
    unfold keywordHeadSafe at hk'
    rw [hkd] at hk'
    have hk2 : (!hierStartOK c) = true := hk'
    revert hk2
    cases hierStartOK c <;> simp
  rcases Bool.or_eq_true_iff.mp hpre with hp | hp
  · refine ⟨c, ?_, hok⟩
    have := isPrefixOf_head? hp (by rw [hkd]; exact List.cons_ne_nil _ _)
    rw [this, hkd]
    rfl
  · refine ⟨'【', ?_, by decide⟩
    have := isPrefixOf_head? hp (List.cons_ne_nil _ _)
    rw [this]
    rfl

theorem isLegalSectionAux_head {table : List (String × List String)} {t : List Char}
    (htab : ∀ pr ∈ table, ∀ k ∈ pr.2, keywordHeadSafe k = true)
    (h : (isLegalSectionAux table t).1 = true) :
    ∃ c, t.head? = some c ∧ hierStartOK c = false := by
  induction table with
  | nil => cases h
  | cons pr rest ih =>
    obtain ⟨bt, kws⟩ := pr
    unfold isLegalSectionAux at h
    by_cases hm : matchesKeywordList kws t = true
    · exact matchesKeywordList_head hm (htab (bt, kws) (List.mem_cons_self _ _))
    · rw [if_neg hm] at h
      exact ih (fun p hp => htab p (List.mem_cons_of_mem _ hp)) h

/-- A line recognized as a legal-section heading never matches any of the
hierarchy numbering patterns: its title always gets level 0. -/
theorem heading_level_zero {line : List Char}
    (h : (isLegalSection line).1 = true) :
    identifyHierarchyLevel (stripChars line) = 0 := by
  obtain ⟨c, hc, hok⟩ := isLegalSectionAux_head sectionKeywords_head_not_hier h
  have hc2 : (stripChars (stripChars line)).head? = some c :=
    head?_stripChars_stripChars hc
  obtain ⟨tl, htl⟩ : ∃ tl, stripChars (stripChars line) = c :: tl := by
    cases hx : stripChars (stripChars line) with
    | nil => rw [hx] at hc2; cases hc2
    | cons a tl =>
      rw [hx, List.head?_cons] at hc2
      injection hc2 with hc2
      exact ⟨tl, by rw [hc2]⟩
  obtain ⟨hp1, hp2, hp3, hp4⟩ := hierPatterns_false_of_head c tl hok
  simp [identifyHierarchyLevel, htl, hp1, hp2, hp3, hp4]

theorem identifySectionsAux_titles {lines : List (List Char)} {pos : Nat} :
    ∀ s ∈ identifySectionsAux lines pos,
      ∃ line, s.2.1 = stripChars line ∧ (isLegalSection line).1 = true := by
  induction lines generalizing pos with
  | nil => intro s hs; cases hs
  | cons line rest ih =>
    intro s hs
    unfold identifySectionsAux at hs
    by_cases hb : stripChars line = []
    · rw [if_pos hb] at hs
      exact ih s hs
    · rw [if_neg hb] at hs
      by_cases hm : (isLegalSection line).1 = true
      · rw [if_pos hm] at hs
        rcases List.mem_cons.mp hs with rfl | hmem
        · exact ⟨line, rfl, hm⟩
        · exact ih _ hmem
      · rw [if_neg hm] at hs
        exact ih s hs

theorem sectionBlocks_level {text : List Char} :
    ∀ (secs : List (Nat × List Char × String)) (idx : Nat),
      ∀ b ∈ sectionBlocks text secs idx,
        ∃ s ∈ secs, b.level = identifyHierarchyLevel s.2.1 := by
  intro secs
  induction secs with
  | nil => intro idx b hb; cases hb
  | cons sec rest ih =>
    obtain ⟨pos, title, bt⟩ := sec
    intro idx b hb
    unfold sectionBlocks at hb
    rcases List.mem_cons.mp hb with rfl | hmem
    · exact ⟨(pos, title, bt), List.mem_cons_self _ _, rfl⟩
    · obtain ⟨s, hs, hlev⟩ := ih (idx + 1) b hmem
      exact ⟨s, List.mem_cons_of_mem _ hs, hlev⟩

theorem applyAssign_level (assigns : List (Nat × Option Nat)) (b : DocumentBlock) :
    (applyAssign assigns b).level = b.level := by
  unfold applyAssign
  by_cases hb : 0 < b.level
  · rw [if_pos hb]
    cases (assigns.find? fun a => a.1 == b.blockId).bind (·.2) <;> rfl
  · rw [if_neg hb]

/-- No block ever receives a positive level: headings start with a keyword
character while numbering patterns require ordinal, digit, or parenthesis. -/
theorem parse_level_zero (t : List Char) : ∀ b ∈ parse t, b.level = 0 := by
  intro b hb
  unfold parse buildHierarchy at hb
  obtain ⟨b0, hb0, rfl⟩ := List.mem_map.mp hb
  rw [applyAssign_level]
  revert hb0
  cases hsecs : identifySections (cleanText t) with
  | nil =>
    intro hb0
    cases hb0
  | cons first rest =>
    obtain ⟨p0, title, bt⟩ := first
    rw [buildBlocks_cons]
    by_cases hp : 0 < p0 ∧ stripChars ((cleanText t).take p0) ≠ []
    · rw [if_pos hp]
      intro hb0
      rcases List.mem_cons.mp hb0 with rfl | hmem
      · rfl
      · obtain ⟨s, hs, hlev⟩ := sectionBlocks_level _ _ b0 hmem
        rw [← hsecs] at hs
        obtain ⟨line, hline, hsec⟩ := identifySectionsAux_titles s hs
        rw [hlev, hline]
        exact heading_level_zero hsec
    · rw [if_neg hp]
      intro hb0
      obtain ⟨s, hs, hlev⟩ := sectionBlocks_level _ _ b0 hb0
      rw [← hsecs] at hs
      obtain ⟨line, hline, hsec⟩ := identifySectionsAux_titles s hs
      rw [hlev, hline]
      exact heading_level_zero hsec

/-- Hierarchy soundness: each positive-level block's parent, when present,
is an earlier block (smaller start position) with strictly smaller positive
level. -/
def hierarchyOK (bs : List DocumentBlock) : Prop :=
  ∀ b ∈ bs, 0 < b.level →
    b.parentId = none ∨
      ∃ p ∈ bs, b.parentId = some p.blockId ∧ p.startPos < b.startPos ∧
        0 < p.level ∧ p.level < b.level

/-- C8: for every input text, every returned block with positive level has a
`parent_id` that is absent or refers to an earlier block with strictly
smaller positive level.  This holds because `parse` in fact never produces a
block with positive level (`parse_level_zero`): the heading patterns and the
numbering patterns have disjoint sets of admissible first characters. -/
theorem c8_hierarchy_parent_sound (t : List Char) : hierarchyOK (parse t) := by
  intro b hb hpos
  rw [parse_level_zero t b hb] at hpos
  cases hpos

/-! ## Pipeline controller (`src/langgraph_agents/qa_agent.py`,
`src/langgraph_agents/graph.py`, `src/config/settings.py`)

The quality threshold (`settings.quality_threshold = 0.8`) and the retry
ceiling (`settings.max_backtrack_attempts = 1`) are kept as parameters
`thr` and `max`; the configured values are `4/5` and `1`. -/

/-- Quality report as consumed by the controller
(`QualityCheckAgent._parse_response`). -/
structure QualityReport where
  qualityScore : ℚ
  entityCount : Nat
  relationCount : Nat
  issues : List String
  recommendations : List String
  backtrackStage : Option String
deriving DecidableEq, Repr

/-- The backtracking-control slice of `ExtractionState`
(`src/langgraph_agents/state.py`). -/
structure CtrlState where
  backtrackNeeded : Bool
  backtrackStage : Option String
  backtrackCount : Nat
  qualityReport : Option QualityReport
  currentStage : String
deriving DecidableEq, Repr

/-- The control slice of `create_initial_state`. -/
def initialCtrl : CtrlState :=
  { backtrackNeeded := false, backtrackStage := none, backtrackCount := 0,
    qualityReport := none, currentStage := "initial" }

/-- The state update performed by `QualityCheckAgent.process` after a
successfully parsed quality report (lines 171-188): flag a backtrack and
increment the counter when the score is below the threshold, then clear the
flag again if the counter exceeded the maximum. -/
def qaApply (max : Nat) (thr : ℚ) (rep : QualityReport) (s : CtrlState) : CtrlState :=
  if rep.qualityScore < thr then
    let c := s.backtrackCount + 1
    { s with backtrackNeeded := !decide (max < c),
             backtrackStage := rep.backtrackStage,
             backtrackCount := c,
             qualityReport := some rep,
             currentStage := "qa_completed" }
  else
    { s with backtrackNeeded := false, qualityReport := some rep,
             currentStage := "qa_completed" }

/-- The stage table of `LegalExtractionGraph._should_backtrack`. -/
def stageMapping : List (String × String) :=
  [ ("document_parser", "backtrack_document_parser"),
    ("ner", "backtrack_ner"),
    ("normalization", "backtrack_normalization"),
    ("relation", "backtrack_relation"),
    ("relation_norm", "backtrack_relation_norm"),
    ("coref", "backtrack_coref") ]

/-- `LegalExtractionGraph._should_backtrack`: the conditional edge leaving
the quality node.  `Python None` for the backtrack stage and unrecognized
stage names both map to `"end"`. -/
def shouldBacktrack (max : Nat) (s : CtrlState) : String :=
  if s.backtrackNeeded = false then "end"
  else if max ≤ s.backtrackCount then "end"
  else
    match s.backtrackStage with
    | none => "end"
    | some st => ((stageMapping.find? fun p => p.1 == st).map (·.2)).getD "end"

/-- One pass through the quality stage followed by the routing decision.
`reports k` is the externally produced quality report consumed by pass `k`;
the intermediate deterministic stages do not touch any backtracking field,
so a full pipeline cycle is one `controllerStep`. -/
structure RunState where
  ctrl : CtrlState
  terminated : Bool
  passes : Nat
deriving DecidableEq, Repr

def controllerStep (max : Nat) (thr : ℚ) (reports : Nat → QualityReport)
    (r : RunState) : RunState :=
  if r.terminated then r
  else
    let s := qaApply max thr (reports r.passes) r.ctrl
    { ctrl := s, terminated := shouldBacktrack max s == "end", passes := r.passes + 1 }

/-- The controller's run after `n` steps, starting from the initial state. -/
def runN (max : Nat) (thr : ℚ) (reports : Nat → QualityReport) : Nat → RunState
  | 0 => { ctrl := initialCtrl, terminated := false, passes := 0 }
  | n + 1 => controllerStep max thr reports (runN max thr reports n)

/-! ### C3: bounded backtracking -/

theorem qaApply_count_le (max : Nat) (thr : ℚ) (rep : QualityReport) (s : CtrlState) :
    (qaApply max thr rep s).backtrackCount ≤ s.backtrackCount + 1 := by
  unfold qaApply
  by_cases h : rep.qualityScore < thr
  · rw [if_pos h]
  · rw [if_neg h]
    exact Nat.le_succ _

theorem shouldBacktrack_ne_end (max : Nat) (s : CtrlState)
    (h : shouldBacktrack max s ≠ "end") : s.backtrackCount < max := by
  unfold shouldBacktrack at h
  by_cases h1 : s.backtrackNeeded = false
  · rw [if_pos h1] at h
    exact absurd rfl h
  · rw [if_neg h1] at h
    by_cases h2 : max ≤ s.backtrackCount
    · rw [if_pos h2] at h
      exact absurd rfl h
    · exact Nat.lt_of_not_le h2

theorem qaApply_count_progress (max : Nat) (thr : ℚ) (rep : QualityReport)
    (s : CtrlState) (h : shouldBacktrack max (qaApply max thr rep s) ≠ "end") :
    (qaApply max thr rep s).backtrackCount = s.backtrackCount + 1 := by
  unfold qaApply at h ⊢
  by_cases hq : rep.qualityScore < thr
  · rw [if_pos hq]
  · rw [if_neg hq] at h
    exfalso
    exact h (by unfold shouldBacktrack; rw [if_pos rfl])

/-- Invariant of the run: while not terminated, the backtrack counter equals
the number of completed passes and stays strictly below the maximum; once
terminated it never exceeds the maximum. -/
theorem runN_invariant (max : Nat) (thr : ℚ) (reports : Nat → QualityReport)
    (hmax : 1 ≤ max) : ∀ n,
    ((runN max thr reports n).terminated = false →
        (runN max thr reports n).ctrl.backtrackCount = n ∧ n < max) ∧
      (runN max thr reports n).ctrl.backtrackCount ≤ max ∧
      (runN max thr reports n).passes ≤ n := by
  intro n
  induction n with
  | zero => exact ⟨fun _ => ⟨rfl, hmax⟩, Nat.zero_le _, Nat.le_refl _⟩
  | succ n ih =>
    obtain ⟨hrun, hle, hpass⟩ := ih
    rw [show runN max thr reports (n + 1) =
      controllerStep max thr reports (runN max thr reports n) from rfl]
    unfold controllerStep
    by_cases ht : (runN max thr reports n).terminated = true
    · rw [if_pos ht]
      exact ⟨fun hf => absurd ht (by rw [hf]; exact Bool.false_ne_true),
        hle, Nat.le_succ_of_le hpass⟩
    · rw [if_neg ht]
      have hnf : (runN max thr reports n).terminated = false :=
        Bool.eq_false_iff.mpr ht
      obtain ⟨hcount, hlt⟩ := hrun hnf
      constructor
      · intro hterm
        simp only [beq_eq_false_iff_ne, ne_eq] at hterm
        have hprog := qaApply_count_progress max thr (reports (runN max thr reports n).passes)
          (runN max thr reports n).ctrl hterm
        have hlt2 := shouldBacktrack_ne_end max _ hterm
        rw [hprog, hcount] at hlt2 ⊢
        exact ⟨rfl, hlt2⟩
      · constructor
        · have := qaApply_count_le max thr (reports (runN max thr reports n).passes)
            (runN max thr reports n).ctrl
          rw [hcount] at this
          exact Nat.le_trans this (Nat.succ_le_of_lt hlt)
        · exact Nat.succ_le_succ hpass

theorem runN_terminated_mono (max : Nat) (thr : ℚ) (reports : Nat → QualityReport)
    {n : Nat} (h : (runN max thr reports n).terminated = true) :
    (runN max thr reports (n + 1)).terminated = true := by
  show (controllerStep max thr reports (runN max thr reports n)).terminated = true
  unfold controllerStep
  rw [if_pos h]
  exact h

/-- C3: with a configured maximum of at least one backtrack (the setting is
`max_backtrack_attempts = 1`), the backtrack counter never exceeds the
maximum in any reachable state, and the controller always terminates within
`max + 1` passes through the quality stage, whatever quality reports the
oracle produces. -/
theorem c3_backtrack_bounded_terminates (reports : Nat → QualityReport)
    (thr : ℚ) (max : Nat) (hmax : 1 ≤ max) :
    (∀ n, (runN max thr reports n).ctrl.backtrackCount ≤ max) ∧
      (runN max thr reports (max + 1)).terminated = true ∧
      (runN max thr reports (max + 1)).passes ≤ max + 1 := by
  refine ⟨fun n => (runN_invariant max thr reports hmax n).2.1, ?_, ?_⟩
  · have hm : (runN max thr reports max).terminated = true := by
      by_contra hf
      have hnf : (runN max thr reports max).terminated = false :=
        Bool.eq_false_iff.mpr hf
      obtain ⟨_, hlt⟩ := ((runN_invariant max thr reports hmax max).1) hnf
      exact Nat.lt_irrefl max hlt
    exact runN_terminated_mono max thr reports hm
  · exact (runN_invariant max thr reports hmax (max + 1)).2.2

/-! ### C6: malformed quality output degrades to the default report -/

/-- The parsed fields of a well-formed quality JSON object, each optional
(`data.get(key, default)` in `_parse_response`). -/
structure QAJson where
  qualityScore : Option ℚ
  entityCount : Option Nat
  relationCount : Option Nat
  issues : Option (List String)
  recommendations : Option (List String)
  backtrackStage : Option String
deriving DecidableEq, Repr

/-- `QualityCheckAgent._get_default_report`. -/
def defaultReport (reason : String) : QualityReport :=
  { qualityScore := 1/2, entityCount := 0, relationCount := 0,
    issues := [reason], recommendations := [], backtrackStage := none }

/-- Python `str.strip` on `String`. -/
def stripString (s : String) : String := String.mk (stripChars s.data)

/-- `QualityCheckAgent._parse_response`, with `json.loads` abstracted as the
function `parseJson` (`none` models a `JSONDecodeError`): an empty or
unparseable response yields the default report (score 0.5, no backtrack
stage) instead of raising. -/
def parseResponse (parseJson : String → Option QAJson) (response : String) :
    QualityReport :=
  let r := stripString response
  if r.data = [] then defaultReport "响应为空"
  else
    match parseJson r with
    | none => defaultReport "JSON 解析失败"
    | some d =>
      { qualityScore := d.qualityScore.getD (1/2),
        entityCount := d.entityCount.getD 0,
        relationCount := d.relationCount.getD 0,
        issues := d.issues.getD [],
        recommendations := d.recommendations.getD [],
        backtrackStage := d.backtrackStage }

/-- `QualityCheckAgent.process` including its failure propagation: when the
oracle call itself raised (`Except.error`), the exception is re-raised and
the run aborts; a response that merely fails to parse is handled by
`_parse_response` and the stage completes normally. -/
def qaProcessRun (parseJson : String → Option QAJson) (max : Nat) (thr : ℚ)
    (resp : Except String String) (s : CtrlState) : Except String CtrlState :=
  match resp with
  | .error e => .error e
  | .ok r => .ok (qaApply max thr (parseResponse parseJson r) s)

/-- C6: a malformed quality-stage oracle output (empty after stripping, or
unparseable as JSON) does not abort the run: the quality report becomes the
fixed default report with score `1/2` and no backtrack stage, and the
router then returns `"end"` — no earlier stage is re-run — for every
controller state, maximum, and threshold. -/
theorem c6_malformed_quality_degrades (parseJson : String → Option QAJson)
    (resp : String) (s : CtrlState) (max : Nat) (thr : ℚ)
    (hmal : (stripString resp).data = [] ∨ parseJson (stripString resp) = none) :
    (parseResponse parseJson resp).qualityScore = 1/2 ∧
      (parseResponse parseJson resp).backtrackStage = none ∧
      qaProcessRun parseJson max thr (.ok resp) s =
        .ok (qaApply max thr (parseResponse parseJson resp) s) ∧
      shouldBacktrack max (qaApply max thr (parseResponse parseJson resp) s) = "end" := by
  have hdef : ∃ reason, parseResponse parseJson resp = defaultReport reason := by
    unfold parseResponse
    rcases hmal with hempty | hparse
    · exact ⟨"响应为空", by rw [if_pos hempty]⟩
    · by_cases hempty : (stripString resp).data = []
      · exact ⟨"响应为空", by rw [if_pos hempty]⟩
      · refine ⟨"JSON 解析失败", ?_⟩
        rw [if_neg hempty, hparse]
  obtain ⟨reason, hrep⟩ := hdef
  rw [hrep]
  have h3 : qaProcessRun parseJson max thr (.ok resp) s =
      .ok (qaApply max thr (defaultReport reason) s) := by
    show Except.ok (qaApply max thr (parseResponse parseJson resp) s) = _
    rw [hrep]
  refine ⟨rfl, rfl, h3, ?_⟩
  unfold qaApply
  by_cases hq : (defaultReport reason).qualityScore < thr
  · rw [if_pos hq]
    unfold shouldBacktrack
    by_cases hn : (!decide (max < s.backtrackCount + 1)) = false
    · rw [if_pos hn]
    · rw [if_neg hn]
      by_cases hc : max ≤ s.backtrackCount + 1
      · rw [if_pos hc]
      · rw [if_neg hc]
        rfl
  · rw [if_neg hq]
    unfold shouldBacktrack
    rw [if_pos rfl]

/-- Witness for `c6_malformed_quality_degrades` on the unparseable response
`"not json"` with the configured `max = 1`, `thr = 4/5`. -/
theorem c6_malformed_quality_degrades_witness :
    ((stripString "not json").data = [] ∨
        (fun _ => (none : Option QAJson)) (stripString "not json") = none) ∧
      ((parseResponse (fun _ => none) "not json").qualityScore = 1/2 ∧
        (parseResponse (fun _ => none) "not json").backtrackStage = none ∧
        qaProcessRun (fun _ => none) 1 (4/5) (.ok "not json") initialCtrl =
          .ok (qaApply 1 (4/5) (parseResponse (fun _ => none) "not json") initialCtrl) ∧
        shouldBacktrack 1
          (qaApply 1 (4/5) (parseResponse (fun _ => none) "not json") initialCtrl) = "end") :=
  ⟨Or.inr rfl, c6_malformed_quality_degrades (fun _ => none) "not json" initialCtrl 1
    (4/5) (Or.inr rfl)⟩

/-- An all-failing report stream used to witness the bound. -/
def failReports : Nat → QualityReport := fun _ =>
  { qualityScore := 0, entityCount := 0, relationCount := 0, issues := [],
    recommendations := [], backtrackStage := some "ner" }

/-- Witness for `c3_backtrack_bounded_terminates` at the configured
`max_backtrack_attempts = 1` and `quality_threshold = 4/5`. -/
theorem c3_backtrack_bounded_terminates_witness :
    (1 : Nat) ≤ 1 ∧
      ((∀ n, (runN 1 (4/5) failReports n).ctrl.backtrackCount ≤ 1) ∧
        (runN 1 (4/5) failReports 2).terminated = true ∧
        (runN 1 (4/5) failReports 2).passes ≤ 2) :=
  ⟨Nat.le_refl 1, c3_backtrack_bounded_terminates failReports (4/5) 1 (Nat.le_refl 1)⟩

/-! ## Coreference resolver (`src/langgraph_agents/coref_agent.py`) -/

/-- The relation-dictionary fields used by `CorefAgent`. -/
structure CorefRelation where
  subjectEntityId : String
  predicate : String
  objectEntityId : String
  originalSubject : Option String := none
  originalObject : Option String := none
  wasResolved : Bool := false
deriving DecidableEq, Repr, Inhabited

/-- A normalized entity as seen by `CorefAgent` (only id and type are
consulted). -/
structure CorefEntity where
  entityId : String
  entityType : String
deriving DecidableEq, Repr

structure GraphEdge where
  target : String
  predicate : String
  direction : String
deriving DecidableEq, Repr

/-- Adjacency structure: association list keyed by entity id; per-key edge
lists grow by appending (matching `defaultdict(list).append`). -/
def addEdge (g : List (String × List GraphEdge)) (key : String) (e : GraphEdge) :
    List (String × List GraphEdge) :=
  match g with
  | [] => [(key, [e])]
  | (k, es) :: rest =>
    if k == key then (k, es ++ [e]) :: rest else (k, es) :: addEdge rest key e

/-- `CorefAgent._build_entity_graph`: add a pair of directed edges for every
relation whose two endpoints are nonempty strings. -/
def buildEntityGraph (rels : List CorefRelation) : List (String × List GraphEdge) :=
  rels.foldl
    (fun g r =>
      if r.subjectEntityId ≠ "" ∧ r.objectEntityId ≠ "" then
        addEdge (addEdge g r.subjectEntityId
            ⟨r.objectEntityId, r.predicate, "out"⟩)
          r.objectEntityId ⟨r.subjectEntityId, r.predicate, "in"⟩
      else g)
    []

/-- Dictionary lookup `entity_map.get(id)` where the map was built by a dict
comprehension (later entries with the same id overwrite earlier ones, hence
the reversed search). -/
def findEntity (ents : List CorefEntity) (id : String) : Option CorefEntity :=
  ents.reverse.find? fun e => e.entityId == id

def lookupGraph (g : List (String × List GraphEdge)) (key : String) :
    Option (List GraphEdge) :=
  (g.find? fun p => p.1 == key).map (·.2)

/-- Python substring containment `needle in hay` on character lists. -/
def containsSeq (needle : List Char) : List Char → Bool
  | [] => needle.isEmpty
  | c :: rest => needle.isPrefixOf (c :: rest) || containsSeq needle rest

/-- Semantic clues extracted from an unresolved token
(`CorefAgent._extract_pronoun_clues`). -/
structure Clues where
  text : String
  entityTypes : List String
  keywords : List String
  isPurePronoun : Bool
deriving DecidableEq, Repr

def extractPronounClues (p : String) : Clues :=
  let tk :=
    if containsSeq "被告".data p.data then (["Party"], ["defendant"])
    else if containsSeq "原告".data p.data then (["Party"], ["plaintiff"])
    else if containsSeq "法院".data p.data then (["Court"], [])
    else if containsSeq "法官".data p.data then (["Judge"], [])
    else if containsSeq "证据".data p.data then (["Evidence"], [])
    else ([], [])
  { text := p, entityTypes := tk.1, keywords := tk.2,
    isPurePronoun := p ∈ ["他", "她", "它", "其", "该", "此"] }

/-- The "strong" predicates whose traversal decays the path score by 0.8
instead of 0.6. -/
def strongPredicates : List String := ["case_involved_party", "party_against_party"]

/-- Exact nonnegative rational score arithmetic used by the BFS.  The
Python code computes with float constants (1.0, 0.8, 0.6, 0.3, 0.7, 0.5)
whose exact-arithmetic idealization is rational; `Score` keeps an
unnormalized numerator/denominator pair (denominators are products of the
positive literals 1, 2, 5, 10, hence never zero), compares by
cross-multiplication, and is interpreted into `ℚ` by `toRat`. -/
structure Score where
  num : Nat
  den : Nat
deriving DecidableEq, Repr

def Score.mulS (a b : Score) : Score := ⟨a.num * b.num, a.den * b.den⟩

def Score.addS (a b : Score) : Score :=
  ⟨a.num * b.den + b.num * a.den, a.den * b.den⟩

/-- `a ≤ b` on scores by cross-multiplication (valid for positive
denominators). -/
def Score.leB (a b : Score) : Bool := a.num * b.den ≤ b.num * a.den

def toRat (s : Score) : ℚ := (s.num : ℚ) / (s.den : ℚ)

/-- Score assigned to a visited node in `_graph_bfs`:
`path_similarity * (0.3 + 0.7 * type_score)` where the type score is 1 on a
clue-type match, 0.5 on a mismatch with nonempty clue types, and 0 when no
clue types were extracted. -/
def nodeScore (clues : Clues) (emap : List CorefEntity) (id : String)
    (pathSim : Score) : Score :=
  let etype := ((findEntity emap id).map (·.entityType)).getD ""
  let typeScore : Score :=
    if clues.entityTypes ≠ [] then
      (if etype ∈ clues.entityTypes then ⟨1, 1⟩ else ⟨1, 2⟩)
    else ⟨0, 1⟩
  pathSim.mulS (Score.addS ⟨3, 10⟩ (Score.mulS ⟨7, 10⟩ typeScore))

/-- One neighbour-expansion of `_graph_bfs`: enqueue unvisited targets with
the decayed path score, marking them visited at enqueue time. -/
def expandEdges (hops : Nat) (pathSim : Score) :
    List GraphEdge → List String → List (String × Nat × Score) × List String
  | [], visited => ([], visited)
  | e :: rest, visited =>
    if e.target ∈ visited then expandEdges hops pathSim rest visited
    else
      let decay : Score := if e.predicate ∈ strongPredicates then ⟨4, 5⟩ else ⟨3, 5⟩
      let (q, v) := expandEdges hops pathSim rest (e.target :: visited)
      ((e.target, hops + 1, pathSim.mulS decay) :: q, v)

/-- The FIFO loop of `_graph_bfs`.  `fuel` bounds the number of iterations;
since every node is enqueued at most once (the visited set is extended at
enqueue time) the loop runs at most `1 + Σ |adjacency list|` times, so the
fuel chosen in `graphBFS` below never runs out. -/
def bfsLoop (start : String) (clues : Clues)
    (graph : List (String × List GraphEdge)) (emap : List CorefEntity)
    (maxHops : Nat) :
    Nat → List (String × Nat × Score) → List String → List (String × Score) →
      List (String × Score)
  | 0, _, _, acc => acc
  | _ + 1, [], _, acc => acc
  | fuel + 1, (cur, hops, pathSim) :: qrest, visited, acc =>
    let acc' :=
      if cur == start then acc else acc ++ [(cur, nodeScore clues emap cur pathSim)]
    if hops < maxHops then
      match lookupGraph graph cur with
      | some edges =>
        let (newQ, visited') := expandEdges hops pathSim edges visited
        bfsLoop start clues graph emap maxHops fuel (qrest ++ newQ) visited' acc'
      | none => bfsLoop start clues graph emap maxHops fuel qrest visited acc'
    else bfsLoop start clues graph emap maxHops fuel qrest visited acc'

def edgeCount (g : List (String × List GraphEdge)) : Nat :=
  (g.map fun p => p.2.length).sum

/-- `CorefAgent._graph_bfs`. -/
def graphBFS (start : String) (clues : Clues)
    (graph : List (String × List GraphEdge)) (emap : List CorefEntity)
    (maxHops : Nat) : List (String × Score) :=
  bfsLoop start clues graph emap maxHops (edgeCount graph + 2)
    [(start, 0, ⟨1, 1⟩)] [start] []

/-- Stable descending insertion by score (Python's stable
`sort(key=..., reverse=True)`): the inserted element precedes every element
with an equal or smaller score, preserving the original order of ties. -/
def insertDesc (x : String × Score) : List (String × Score) → List (String × Score)
  | [] => [x]
  | y :: ys => if Score.leB y.2 x.2 then x :: y :: ys else y :: insertDesc x ys

def sortDesc : List (String × Score) → List (String × Score)
  | [] => []
  | x :: xs => insertDesc x (sortDesc xs)

/-- The known-anchor selection of `CorefAgent._find_candidate_entities`:
the other endpoint, when exactly one endpoint is a known entity id and both
are nonempty. -/
def corefAnchor (emap : List CorefEntity) (rel : CorefRelation) : Option String :=
  if rel.subjectEntityId ≠ "" ∧ (findEntity emap rel.subjectEntityId).isSome ∧
      rel.objectEntityId ≠ "" ∧ (findEntity emap rel.objectEntityId).isSome = false then
    some rel.subjectEntityId
  else if rel.objectEntityId ≠ "" ∧ (findEntity emap rel.objectEntityId).isSome ∧
      rel.subjectEntityId ≠ "" ∧ (findEntity emap rel.subjectEntityId).isSome = false then
    some rel.objectEntityId
  else none

/-- `CorefAgent._find_candidate_entities`: determine the known anchor, then
run the bounded BFS (`max_hops = 3`) and sort candidates by descending
score. -/
def findCandidateEntities (clues : Clues)
    (graph : List (String × List GraphEdge)) (emap : List CorefEntity)
    (rel : CorefRelation) : List (String × Score) :=
  match corefAnchor emap rel with
  | none => []
  | some k => sortDesc (graphBFS k clues graph emap 3)

/-- `CorefAgent._select_best_candidate` with
`similarity_threshold = 0.5`. -/
def selectBestCandidate (pronoun : String) (cands : List (String × Score)) : String :=
  match cands with
  | [] => pronoun
  | c0 :: _ =>
    match cands.filter fun c => Score.leB ⟨1, 2⟩ c.2 with
    | [] => c0.1
    | f0 :: _ => f0.1

/-- `CorefAgent._resolve_pronoun`. -/
def resolvePronoun (p : String) (rel : CorefRelation)
    (graph : List (String × List GraphEdge)) (emap : List CorefEntity) : String :=
  if (findEntity emap p).isSome then p
  else
    let clues := extractPronounClues p
    let cands := findCandidateEntities clues graph emap rel
    if cands = [] then p else selectBestCandidate p cands

/-- `CorefAgent._resolve_relation`: resolve both endpoints (each anchored on
the original relation) and record originals and the resolution flag. -/
def resolveRelation (rel : CorefRelation)
    (graph : List (String × List GraphEdge)) (emap : List CorefEntity) :
    CorefRelation :=
  let rs := resolvePronoun rel.subjectEntityId rel graph emap
  let ro := resolvePronoun rel.objectEntityId rel graph emap
  let wasS := rs ≠ rel.subjectEntityId
  let wasO := ro ≠ rel.objectEntityId
  { rel with
      subjectEntityId := rs,
      originalSubject := if wasS then some rel.subjectEntityId else rel.originalSubject,
      objectEntityId := ro,
      originalObject := if wasO then some rel.objectEntityId else rel.originalObject,
      wasResolved := decide wasS || decide wasO }

/-- `CorefAgent.process` on the relation list: skip when either input list is
empty, otherwise resolve every relation against the graph of all
relations. -/
def corefProcess (rels : List CorefRelation) (ents : List CorefEntity) :
    List CorefRelation :=
  if rels = [] ∨ ents = [] then rels
  else rels.map fun r => resolveRelation r (buildEntityGraph rels) ents

/-! ### C4: the worked coreference example

Entities `案A : Case` and `party1 : Party`; relations
`(案A, involves, party1)` and `(该被告, involves, 案A)` with `该被告`
unresolved. -/

def c4ents : List CorefEntity := [⟨"案A", "Case"⟩, ⟨"party1", "Party"⟩]

def c4rel1 : CorefRelation :=
  { subjectEntityId := "案A", predicate := "involves", objectEntityId := "party1" }

def c4rel2 : CorefRelation :=
  { subjectEntityId := "该被告", predicate := "involves", objectEntityId := "案A" }

/-- C4, claim as stated is false: in the worked example, `party1`'s
candidate score is `0.6`, not `1.0 × (0.3 + 0.7 × 1.0) = 1.0` — `_graph_bfs`
applies the per-hop decay (0.6, since `involves` is not one of the strong
predicates) to the path score before scoring the hop-1 node. -/
theorem c4_counterexample :
    (graphBFS "案A" (extractPronounClues "该被告")
        (buildEntityGraph [c4rel1, c4rel2]) c4ents 3).map (fun c => (c.1, toRat c.2)) =
      [("party1", 3/5), ("该被告", 39/100)] ∧ (3/5 : ℚ) ≠ 1 := by
  have h : graphBFS "案A" (extractPronounClues "该被告")
      (buildEntityGraph [c4rel1, c4rel2]) c4ents 3 =
      [("party1", ⟨300, 500⟩), ("该被告", ⟨390, 1000⟩)] := by decide
  rw [h]
  refine ⟨?_, by norm_num⟩
  show [("party1", toRat ⟨300, 500⟩), ("该被告", toRat ⟨390, 1000⟩)] = _
  norm_num [toRat]

/-- C4 (amended): in the worked example the clue `被告` yields candidate
type Party, the BFS from anchor `案A` finds `party1` at hop 1 with score
`1.0 × 0.6 × (0.3 + 0.7 × 1.0) = 0.6` (the 0.6 factor being the non-strong
predicate decay of the traversed `involves` edge), which passes the 0.5
threshold, and the endpoint `该被告` is indeed replaced by `party1`. -/
theorem c4_example_resolution :
    (extractPronounClues "该被告").entityTypes = ["Party"] ∧
      (graphBFS "案A" (extractPronounClues "该被告")
          (buildEntityGraph [c4rel1, c4rel2]) c4ents 3).map (fun c => (c.1, toRat c.2)) =
        [("party1", 3/5), ("该被告", 39/100)] ∧
      (3/5 : ℚ) = 1 * (3/5) * (3/10 + 7/10 * 1) ∧ (1/2 : ℚ) ≤ 3/5 ∧
      corefProcess [c4rel1, c4rel2] c4ents =
        [c4rel1,
         { c4rel2 with subjectEntityId := "party1",
                       originalSubject := some "该被告", wasResolved := true }] := by
  have h : graphBFS "案A" (extractPronounClues "该被告")
      (buildEntityGraph [c4rel1, c4rel2]) c4ents 3 =
      [("party1", ⟨300, 500⟩), ("该被告", ⟨390, 1000⟩)] := by decide
  refine ⟨by decide, ?_, by norm_num, by norm_num, by decide⟩
  rw [h]
  show [("party1", toRat ⟨300, 500⟩), ("该被告", toRat ⟨390, 1000⟩)] = _
  norm_num [toRat]

/-! ### C5: what can a resolved endpoint be replaced with?

The BFS explores every node of the relation graph, including unresolved
surface tokens that occur as endpoints of other relations, and the fallback
branch of `_select_best_candidate` returns the top-scoring node even when it
is not a known entity.  So a replacement value is always a node of the
relation graph, but not necessarily a canonical entity id. -/

def c5ents : List CorefEntity := [⟨"案A", "Case"⟩]

def c5rels : List CorefRelation :=
  [ { subjectEntityId := "案A", predicate := "p", objectEntityId := "某被告" },
    { subjectEntityId := "该被告", predicate := "q", objectEntityId := "案A" } ]

/-- C5, claim as stated is false: with canonical entities `[案A]` and
relations `[(案A, p, 某被告), (该被告, q, 案A)]`, the resolver replaces the
unresolved endpoint `该被告` of the second relation with `某被告`, which is
itself an unresolved surface token (not a known canonical entity id). -/
theorem c5_counterexample :
    (corefProcess c5rels c5ents).map (·.subjectEntityId) = ["案A", "某被告"] ∧
      (corefProcess c5rels c5ents).map (·.originalSubject) = [none, some "该被告"] ∧
      findEntity c5ents "某被告" = none := by
  decide

/-- Membership in a graph's edge targets. -/
def isGraphTarget (g : List (String × List GraphEdge)) (id : String) : Prop :=
  ∃ k es, (k, es) ∈ g ∧ ∃ e ∈ es, e.target = id

theorem expandEdges_target {hops : Nat} {pathSim : Score} :
    ∀ {edges : List GraphEdge} {visited : List String}
      {q : String × Nat × Score}, q ∈ (expandEdges hops pathSim edges visited).1 →
      ∃ e ∈ edges, e.target = q.1 := by
  intro edges
  induction edges with
  | nil => intro visited q hq; cases hq
  | cons e rest ih =>
    intro visited q hq
    unfold expandEdges at hq
    by_cases hv : e.target ∈ visited
    · rw [if_pos hv] at hq
      obtain ⟨e', he', ht⟩ := ih hq
      exact ⟨e', List.mem_cons_of_mem _ he', ht⟩
    · rw [if_neg hv] at hq
      simp only [List.mem_cons] at hq
      rcases hq with rfl | hq
      · exact ⟨e, List.mem_cons_self _ _, rfl⟩
      · obtain ⟨e', he', ht⟩ := ih hq
        exact ⟨e', List.mem_cons_of_mem _ he', ht⟩

theorem lookupGraph_mem {g : List (String × List GraphEdge)} {k : String}
    {es : List GraphEdge} (h : lookupGraph g k = some es) :
    ∃ k', (k', es) ∈ g := by
  unfold lookupGraph at h
  cases hf : g.find? fun p => p.1 == k with
  | none => rw [hf] at h; cases h
  | some pr =>
    rw [hf] at h
    injection h with h
    have h2 : pr.2 = es := h
    refine ⟨pr.1, ?_⟩
    rw [← h2, Prod.mk.eta]
    exact List.mem_of_find?_eq_some hf

theorem bfsLoop_sound {start : String} {clues : Clues}
    {graph : List (String × List GraphEdge)} {emap : List CorefEntity}
    {maxHops : Nat} :
    ∀ {fuel : Nat} {queue : List (String × Nat × Score)} {visited : List String}
      {acc : List (String × Score)} {x : String × Score},
      x ∈ bfsLoop start clues graph emap maxHops fuel queue visited acc →
      x ∈ acc ∨ (∃ q ∈ queue, q.1 = x.1 ∧ q.1 ≠ start) ∨ isGraphTarget graph x.1 := by
  intro fuel
  induction fuel with
  | zero => intro queue visited acc x hx; exact Or.inl hx
  | succ fuel ih =>
    intro queue visited acc x hx
    cases queue with
    | nil => exact Or.inl hx
    | cons front qrest =>
      obtain ⟨cur, hops, pathSim⟩ := front
      unfold bfsLoop at hx
      have hacc : ∀ {acc' : List (String × Score)},
          acc' = (if cur == start then acc
            else acc ++ [(cur, nodeScore clues emap cur pathSim)]) →
          x ∈ acc' →
          x ∈ acc ∨ (∃ q ∈ (cur, hops, pathSim) :: qrest, q.1 = x.1 ∧ q.1 ≠ start) ∨
            isGraphTarget graph x.1 := by
        intro acc' hdef hmem
        by_cases hcs : (cur == start) = true
        · rw [hdef, if_pos hcs] at hmem
          exact Or.inl hmem
        · rw [hdef, if_neg hcs] at hmem
          rcases List.mem_append.mp hmem with hl | hr
          · exact Or.inl hl
          · rcases List.mem_singleton.mp hr with rfl
            exact Or.inr (Or.inl ⟨(cur, hops, pathSim), List.mem_cons_self _ _, rfl,
              fun he => hcs (beq_iff_eq.mpr he)⟩)
      by_cases hh : hops < maxHops
      · rw [if_pos hh] at hx
        cases hlk : lookupGraph graph cur with
        | some edges =>
          rw [hlk] at hx
          rcases ih hx with hmem | hqueue | htgt
          · exact hacc rfl hmem
          · obtain ⟨q, hq, hq1, hq2⟩ := hqueue
            rcases List.mem_append.mp hq with hq | hq
            · exact Or.inr (Or.inl ⟨q, List.mem_cons_of_mem _ hq, hq1, hq2⟩)
            · obtain ⟨e, he, ht⟩ := expandEdges_target hq
              obtain ⟨k', hk'⟩ := lookupGraph_mem hlk
              exact Or.inr (Or.inr ⟨k', edges, hk', e, he, by rw [ht, hq1]⟩)
          · exact Or.inr (Or.inr htgt)
        | none =>
          rw [hlk] at hx
          rcases ih hx with hmem | hqueue | htgt
          · exact hacc rfl hmem
          · obtain ⟨q, hq, hq1, hq2⟩ := hqueue
            exact Or.inr (Or.inl ⟨q, List.mem_cons_of_mem _ hq, hq1, hq2⟩)
          · exact Or.inr (Or.inr htgt)
      · rw [if_neg hh] at hx
        rcases ih hx with hmem | hqueue | htgt
        · exact hacc rfl hmem
        · obtain ⟨q, hq, hq1, hq2⟩ := hqueue
          exact Or.inr (Or.inl ⟨q, List.mem_cons_of_mem _ hq, hq1, hq2⟩)
        · exact Or.inr (Or.inr htgt)

theorem graphBFS_sound {start : String} {clues : Clues}
    {graph : List (String × List GraphEdge)} {emap : List CorefEntity}
    {maxHops : Nat} {x : String × Score}
    (hx : x ∈ graphBFS start clues graph emap maxHops) :
    isGraphTarget graph x.1 := by
  rcases bfsLoop_sound hx with hmem | hqueue | htgt
  · cases hmem
  · obtain ⟨q, hq, _, hq2⟩ := hqueue
    rcases List.mem_singleton.mp hq with rfl
    exact absurd rfl hq2
  · exact htgt

theorem mem_insertDesc {x y : String × Score} {l : List (String × Score)}
    (h : y ∈ insertDesc x l) : y = x ∨ y ∈ l := by
  induction l with
  | nil => exact Or.inl (List.mem_singleton.mp h)
  | cons z zs ih =>
    unfold insertDesc at h
    by_cases hz : Score.leB z.2 x.2 = true
    · rw [if_pos hz] at h
      rcases List.mem_cons.mp h with rfl | h
      · exact Or.inl rfl
      · exact Or.inr h
    · rw [if_neg hz] at h
      rcases List.mem_cons.mp h with rfl | h
      · exact Or.inr (List.mem_cons_self _ _)
      · rcases ih h with rfl | h
        · exact Or.inl rfl
        · exact Or.inr (List.mem_cons_of_mem _ h)

theorem mem_sortDesc {y : String × Score} {l : List (String × Score)}
    (h : y ∈ sortDesc l) : y ∈ l := by
  induction l with
  | nil => cases h
  | cons x xs ih =>
    unfold sortDesc at h
    rcases mem_insertDesc h with rfl | h
    · exact List.mem_cons_self _ _
    · exact List.mem_cons_of_mem _ (ih h)

theorem selectBestCandidate_mem (pronoun : String) (cands : List (String × Score)) :
    selectBestCandidate pronoun cands = pronoun ∨
      ∃ c ∈ cands, selectBestCandidate pronoun cands = c.1 := by
  unfold selectBestCandidate
  cases cands with
  | nil => exact Or.inl rfl
  | cons c0 rest =>
    cases hf : (c0 :: rest).filter fun c => Score.leB ⟨1, 2⟩ c.2 with
    | nil => exact Or.inr ⟨c0, List.mem_cons_self _ _, rfl⟩
    | cons f0 fr =>
      refine Or.inr ⟨f0, ?_, rfl⟩
      have : f0 ∈ (c0 :: rest).filter fun c => Score.leB ⟨1, 2⟩ c.2 := by
        rw [hf]; exact List.mem_cons_self _ _
      exact List.mem_of_mem_filter this

theorem addEdge_mem {g : List (String × List GraphEdge)} {key : String}
    {e : GraphEdge} {k' : String} {es' : List GraphEdge}
    (hk : (k', es') ∈ addEdge g key e) {e' : GraphEdge} (he : e' ∈ es') :
    (∃ es0, (k', es0) ∈ g ∧ e' ∈ es0) ∨ e' = e := by
  induction g with
  | nil =>
    rcases List.mem_singleton.mp hk with hpair
    have hes : es' = [e] := congrArg Prod.snd hpair
    rw [hes] at he
    exact Or.inr (List.mem_singleton.mp he)
  | cons pr rest ih =>
    obtain ⟨k0, es0⟩ := pr
    unfold addEdge at hk
    by_cases hkey : (k0 == key) = true
    · rw [if_pos hkey] at hk
      rcases List.mem_cons.mp hk with hpair | htail
      · have hkk : k' = k0 := congrArg Prod.fst hpair
        have hes : es' = es0 ++ [e] := congrArg Prod.snd hpair
        rw [hes] at he
        rcases List.mem_append.mp he with hl | hr
        · exact Or.inl ⟨es0, by rw [hkk]; exact List.mem_cons_self _ _, hl⟩
        · exact Or.inr (List.mem_singleton.mp hr)
      · exact Or.inl ⟨es', List.mem_cons_of_mem _ htail, he⟩
    · rw [if_neg hkey] at hk
      rcases List.mem_cons.mp hk with hpair | htail
      · refine Or.inl ⟨es', ?_, he⟩
        rw [hpair]
        exact List.mem_cons_self _ _
      · rcases ih htail with hold | hnew
        · obtain ⟨es1, hes1, he1⟩ := hold
          exact Or.inl ⟨es1, List.mem_cons_of_mem _ hes1, he1⟩
        · exact Or.inr hnew

/-- C5 (amended): whenever the resolver replaces an endpoint with a
different value, the replacement is a node of the entity graph — an
endpoint of some relation whose two endpoints are both present — but not
necessarily a known canonical entity id: the BFS also visits unresolved
surface tokens that occur as relation endpoints, and can return one
(`c5_counterexample`). -/
theorem c5_replacement_is_graph_endpoint (rels : List CorefRelation)
    (ents : List CorefEntity) (rel : CorefRelation) (p : String)
    (hne : resolvePronoun p rel (buildEntityGraph rels) ents ≠ p) :
    ∃ r ∈ rels, r.subjectEntityId ≠ "" ∧ r.objectEntityId ≠ "" ∧
      (resolvePronoun p rel (buildEntityGraph rels) ents = r.subjectEntityId ∨
        resolvePronoun p rel (buildEntityGraph rels) ents = r.objectEntityId) := by
  have hcand : ∃ c ∈ findCandidateEntities (extractPronounClues p)
      (buildEntityGraph rels) ents rel,
      resolvePronoun p rel (buildEntityGraph rels) ents = c.1 := by
    unfold resolvePronoun at hne ⊢
    by_cases hk : (findEntity ents p).isSome = true
    · rw [if_pos hk] at hne
      exact absurd rfl hne
    · rw [if_neg hk] at hne ⊢
      by_cases hc : findCandidateEntities (extractPronounClues p)
          (buildEntityGraph rels) ents rel = []
      · rw [if_pos hc] at hne
        exact absurd rfl hne
      · rw [if_neg hc] at hne ⊢
        rcases selectBestCandidate_mem p
            (findCandidateEntities (extractPronounClues p)
              (buildEntityGraph rels) ents rel) with heq | hmem
        · exact absurd heq hne
        · exact hmem
  obtain ⟨c, hc, hres⟩ := hcand
  have htgt : isGraphTarget (buildEntityGraph rels) c.1 := by
    unfold findCandidateEntities at hc
    cases hkn : corefAnchor ents rel with
    | none =>
      rw [hkn] at hc
      cases hc
    | some anchor =>
      rw [hkn] at hc
      exact graphBFS_sound (mem_sortDesc hc)
  obtain ⟨k, es, hkes, e, he, htarget⟩ := htgt
  -- trace the edge back to the relation that created it
  have hedge : ∃ r ∈ rels, r.subjectEntityId ≠ "" ∧ r.objectEntityId ≠ "" ∧
      (e.target = r.subjectEntityId ∨ e.target = r.objectEntityId) := by
    have main : ∀ (l : List CorefRelation) (g0 : List (String × List GraphEdge)),
        ∀ k' es', (k', es') ∈ l.foldl
            (fun g r =>
              if r.subjectEntityId ≠ "" ∧ r.objectEntityId ≠ "" then
                addEdge (addEdge g r.subjectEntityId
                    ⟨r.objectEntityId, r.predicate, "out"⟩)
                  r.objectEntityId ⟨r.subjectEntityId, r.predicate, "in"⟩
              else g) g0 →
          ∀ e' ∈ es', (∃ es0, (k', es0) ∈ g0 ∧ e' ∈ es0) ∨
            ∃ r ∈ l, r.subjectEntityId ≠ "" ∧ r.objectEntityId ≠ "" ∧
              (e'.target = r.subjectEntityId ∨ e'.target = r.objectEntityId) := by
      intro l
      induction l with
      | nil =>
        intro g0 k' es' hk' e' he'
        exact Or.inl ⟨es', hk', he'⟩
      | cons r rest ih =>
        intro g0 k' es' hk' e' he'
        rcases ih _ k' es' hk' e' he' with hold | hnew
        · obtain ⟨es0, hes00, he0⟩ := hold
          have hes0 : (k', es0) ∈
              (if r.subjectEntityId ≠ "" ∧ r.objectEntityId ≠ "" then
                addEdge (addEdge g0 r.subjectEntityId
                    ⟨r.objectEntityId, r.predicate, "out"⟩)
                  r.objectEntityId ⟨r.subjectEntityId, r.predicate, "in"⟩
              else g0) := hes00
          by_cases hcond : r.subjectEntityId ≠ "" ∧ r.objectEntityId ≠ ""
          · rw [if_pos hcond] at hes0
            rcases addEdge_mem hes0 he0 with hback | rfl
            · obtain ⟨es1, hes1, he1⟩ := hback
              rcases addEdge_mem hes1 he1 with hback2 | rfl
              · obtain ⟨es2, hes2, he2⟩ := hback2
                exact Or.inl ⟨es2, hes2, he2⟩
              · exact Or.inr ⟨r, List.mem_cons_self _ _, hcond.1, hcond.2, Or.inr rfl⟩
            · exact Or.inr ⟨r, List.mem_cons_self _ _, hcond.1, hcond.2, Or.inl rfl⟩
          · rw [if_neg hcond] at hes0
            exact Or.inl ⟨es0, hes0, he0⟩
        · obtain ⟨r', hr', h1, h2, h3⟩ := hnew
          exact Or.inr ⟨r', List.mem_cons_of_mem _ hr', h1, h2, h3⟩
    rcases main rels [] k es hkes e he with hempty | hfound
    · obtain ⟨es0, hes0, _⟩ := hempty
      cases hes0
    · exact hfound
  obtain ⟨r, hr, h1, h2, h3⟩ := hedge
  rw [htarget] at h3
  rcases h3 with h3 | h3
  · exact ⟨r, hr, h1, h2, Or.inl (by rw [hres, h3])⟩
  · exact ⟨r, hr, h1, h2, Or.inr (by rw [hres, h3])⟩

/-- Witness for `c5_replacement_is_graph_endpoint` on the inputs of
`c5_counterexample`. -/
theorem c5_replacement_is_graph_endpoint_witness :
    resolvePronoun "该被告" (c5rels.getD 1 default) (buildEntityGraph c5rels) c5ents
        ≠ "该被告" ∧
      ∃ r ∈ c5rels, r.subjectEntityId ≠ "" ∧ r.objectEntityId ≠ "" ∧
        (resolvePronoun "该被告" (c5rels.getD 1 default) (buildEntityGraph c5rels) c5ents
            = r.subjectEntityId ∨
          resolvePronoun "该被告" (c5rels.getD 1 default) (buildEntityGraph c5rels) c5ents
            = r.objectEntityId) :=
  ⟨by decide, c5_replacement_is_graph_endpoint c5rels c5ents _ _ (by decide)⟩

/-! ## Relation normalizer (`src/langgraph_agents/relation_norm_agent.py`) -/

/-- A raw relation as extracted by the relation agent. -/
structure RawRelation where
  subject : String
  predicate : String
  object : String
  confidence : ℚ
  evidence : String
  blockId : String
deriving DecidableEq, Repr

/-- `NormalizedRelation` of `relation_norm_agent.py`. -/
structure NormalizedRelation where
  subjectEntityId : String
  predicate : String
  objectEntityId : String
  confidence : ℚ
  evidence : String
  sourceBlockId : String
  needCoref : Bool
  validationPassed : Bool
deriving DecidableEq, Repr

/-- The relation-type schema table of `_load_relation_types`:
predicate ↦ (expected subject type, expected object type). -/
def relationTypes : List (String × String × String) :=
  [ ("case_in_court", "Case", "Court"),
    ("case_judged_by", "Case", "Judge"),
    ("case_involved_party", "Case", "Party"),
    ("case_applied_law", "Case", "Law"),
    ("case_evidence", "Case", "Evidence"),
    ("party_represented_by", "Party", "Party"),
    ("party_against_party", "Party", "Party"),
    ("law_cited_by_case", "Law", "Case"),
    ("law_interpreted_by_case", "Law", "Case"),
    ("case_filed_date", "Case", "Date"),
    ("case_hearing_date", "Case", "Date"),
    ("case_judgment_date", "Case", "Date"),
    ("case_amount", "Case", "Amount"),
    ("party_awarded_amount", "Party", "Amount") ]

/-- The predicate alias table of `_normalize_predicate`, in dictionary
order. -/
def predicateAliases : List (String × String) :=
  [ ("在...法院", "case_in_court"),
    ("由...法官审理", "case_judged_by"),
    ("涉及当事人", "case_involved_party"),
    ("适用法律", "case_applied_law"),
    ("证据", "case_evidence"),
    ("当事人代表", "party_represented_by"),
    ("当事人对抗", "party_against_party"),
    ("引用法律", "law_cited_by_case"),
    ("解释法律", "law_interpreted_by_case"),
    ("立案日期", "case_filed_date"),
    ("开庭日期", "case_hearing_date"),
    ("判决日期", "case_judgment_date"),
    ("案件金额", "case_amount"),
    ("获得金额", "party_awarded_amount") ]

/-- `RelationNormalizationAgent._normalize_predicate`: exact alias lookup,
then schema-key check, then bidirectional substring match against the alias
keys (first hit wins), else the raw predicate unchanged. -/
def normalizePredicate (p : String) : String :=
  match predicateAliases.find? fun a => a.1 == p with
  | some a => a.2
  | none =>
    if (relationTypes.find? fun t => t.1 == p).isSome then p
    else
      match predicateAliases.find? fun a =>
          containsSeq a.1.data p.data || containsSeq p.data a.1.data with
      | some a => a.2
      | none => p

/-- `_build_entity_type_map`: entity id ↦ entity type, for entities whose
id and type are both nonempty (later duplicates overwrite, hence the
reversed search on lookup done by `lookupType`). -/
def buildEntityTypeMap (ents : List (String × String)) : List (String × String) :=
  ents.filter fun e => e.1 ≠ "" ∧ e.2 ≠ ""

def lookupType (m : List (String × String)) (id : String) : Option String :=
  (m.reverse.find? fun e => e.1 == id).map (·.2)

/-- `_validate_schema`. -/
def validateSchema (p : String) (subjectId objectId : String)
    (m : List (String × String)) : Bool :=
  match relationTypes.find? fun t => t.1 == p with
  | none => false
  | some t =>
    ((lookupType m subjectId).getD "" == t.2.1) &&
      ((lookupType m objectId).getD "" == t.2.2)

/-- `_check_need_coref`: an endpoint that is nonempty but absent from the
entity-type map needs coreference resolution. -/
def checkNeedCoref (subjectId objectId : String) (m : List (String × String)) : Bool :=
  (subjectId != "" && (lookupType m subjectId).isNone) ||
    (objectId != "" && (lookupType m objectId).isNone)

/-- `_normalize_relation`. -/
def normalizeRelation (m : List (String × String)) (r : RawRelation) :
    NormalizedRelation :=
  let np := normalizePredicate r.predicate
  { subjectEntityId := r.subject, predicate := np, objectEntityId := r.object,
    confidence := r.confidence, evidence := r.evidence, sourceBlockId := r.blockId,
    needCoref := checkNeedCoref r.subject r.object m,
    validationPassed := validateSchema np r.subject r.object m }

/-- The dedup key `(subject, predicate, object)`. -/
def relKey (r : NormalizedRelation) : String × String × String :=
  (r.subjectEntityId, r.predicate, r.objectEntityId)

/-- The loop of `_deduplicate_relations`: `seen` is the set of keys of
already-kept relations. -/
def dedupGo (seen : List (String × String × String)) :
    List NormalizedRelation → List NormalizedRelation
  | [] => []
  | r :: rest =>
    if relKey r ∈ seen then dedupGo seen rest
    else r :: dedupGo (relKey r :: seen) rest

/-- `RelationNormalizationAgent._deduplicate_relations`. -/
def dedupRelations (rels : List NormalizedRelation) : List NormalizedRelation :=
  dedupGo [] rels

/-- `RelationNormalizationAgent.normalize` restricted to its data flow:
build the type map, normalize every raw relation, deduplicate. -/
def relationNormalize (raws : List RawRelation) (ents : List (String × String)) :
    List NormalizedRelation :=
  if raws = [] then []
  else dedupRelations (raws.map (normalizeRelation (buildEntityTypeMap ents)))

/-! ### C9: deduplication keeps exactly the first occurrence of each triple -/

theorem dedupGo_sublist (seen : List (String × String × String))
    (l : List NormalizedRelation) : (dedupGo seen l).Sublist l := by
  induction l generalizing seen with
  | nil => exact List.Sublist.refl _
  | cons r rest ih =>
    unfold dedupGo
    by_cases hs : relKey r ∈ seen
    · rw [if_pos hs]
      exact (ih seen).cons r
    · rw [if_neg hs]
      exact (ih (relKey r :: seen)).cons₂ r

theorem dedupGo_not_seen {seen : List (String × String × String)}
    {l : List NormalizedRelation} {r : NormalizedRelation}
    (h : r ∈ dedupGo seen l) : relKey r ∉ seen := by
  induction l generalizing seen with
  | nil => cases h
  | cons r0 rest ih =>
    unfold dedupGo at h
    by_cases hs : relKey r0 ∈ seen
    · rw [if_pos hs] at h
      exact ih h
    · rw [if_neg hs] at h
      rcases List.mem_cons.mp h with rfl | hmem
      · exact hs
      · intro hcontra
        exact ih hmem (List.mem_cons_of_mem _ hcontra)

theorem dedupGo_pairwise (seen : List (String × String × String))
    (l : List NormalizedRelation) :
    (dedupGo seen l).Pairwise fun a b => relKey a ≠ relKey b := by
  induction l generalizing seen with
  | nil => exact List.Pairwise.nil
  | cons r rest ih =>
    unfold dedupGo
    by_cases hs : relKey r ∈ seen
    · rw [if_pos hs]
      exact ih seen
    · rw [if_neg hs]
      refine List.Pairwise.cons ?_ (ih (relKey r :: seen))
      intro b hb hkey
      exact dedupGo_not_seen hb (by rw [← hkey]; exact List.mem_cons_self _ _)

theorem dedupGo_complete {seen : List (String × String × String)}
    {l : List NormalizedRelation} {r : NormalizedRelation} (hr : r ∈ l)
    (hseen : relKey r ∉ seen) :
    ∃ r' ∈ dedupGo seen l, relKey r' = relKey r := by
  induction l generalizing seen with
  | nil => cases hr
  | cons r0 rest ih =>
    unfold dedupGo
    by_cases hs : relKey r0 ∈ seen
    · rw [if_pos hs]
      rcases List.mem_cons.mp hr with rfl | hmem
      · exact absurd hs hseen
      · exact ih hmem hseen
    · rw [if_neg hs]
      rcases List.mem_cons.mp hr with rfl | hmem
      · exact ⟨r, List.mem_cons_self _ _, rfl⟩
      · by_cases hk : relKey r = relKey r0
        · exact ⟨r0, List.mem_cons_self _ _, hk.symm⟩
        · obtain ⟨r', hr', hkey⟩ := ih hmem (by
            intro hcontra
            rcases List.mem_cons.mp hcontra with h1 | h2
            · exact hk h1
            · exact hseen h2)
          exact ⟨r', List.mem_cons_of_mem _ hr', hkey⟩

theorem dedupGo_first {seen : List (String × String × String)}
    {l : List NormalizedRelation} {r : NormalizedRelation}
    (h : r ∈ dedupGo seen l) :
    l.find? (fun x => relKey x == relKey r) = some r := by
  induction l generalizing seen with
  | nil => cases h
  | cons r0 rest ih =>
    have hnotseen := dedupGo_not_seen h
    unfold dedupGo at h
    by_cases hs : relKey r0 ∈ seen
    · rw [if_pos hs] at h
      rw [List.find?_cons]
      have hne : (relKey r0 == relKey r) = false := by
        rw [beq_eq_false_iff_ne]
        intro hcontra
        exact dedupGo_not_seen h (by rw [← hcontra]; exact hs)
      rw [hne]
      exact ih h
    · rw [if_neg hs] at h
      rcases List.mem_cons.mp h with rfl | hmem
      · rw [List.find?_cons]
        rw [show (relKey r == relKey r) = true from beq_self_eq_true _]
      · rw [List.find?_cons]
        have hne : (relKey r0 == relKey r) = false := by
          rw [beq_eq_false_iff_ne]
          intro hcontra
          exact dedupGo_not_seen hmem
            (by rw [← hcontra]; exact List.mem_cons_self _ _)
        rw [hne]
        exact ih hmem

/-- C9: relation normalization maps every raw relation and then removes
exactly the later duplicates of each `(subject, predicate, object)` triple:
the output contains no two relations with an identical triple, it is an
order-preserving subsequence of the mapped input, every input triple
survives, and each surviving relation is the first occurrence of its triple
in the mapped input. -/
theorem c9_dedup_exact (raws : List RawRelation) (ents : List (String × String)) :
    (relationNormalize raws ents).Pairwise (fun a b => relKey a ≠ relKey b) ∧
      (relationNormalize raws ents).Sublist
        (raws.map (normalizeRelation (buildEntityTypeMap ents))) ∧
      (∀ r ∈ raws.map (normalizeRelation (buildEntityTypeMap ents)),
        ∃ r' ∈ relationNormalize raws ents, relKey r' = relKey r) ∧
      (∀ r ∈ relationNormalize raws ents,
        (raws.map (normalizeRelation (buildEntityTypeMap ents))).find?
          (fun x => relKey x == relKey r) = some r) := by
  unfold relationNormalize
  by_cases hraw : raws = []
  · subst hraw
    rw [if_pos rfl]
    exact ⟨List.Pairwise.nil, List.nil_sublist _,
      fun r hr => absurd hr (by simp), fun r hr => absurd hr (by simp)⟩
  · rw [if_neg hraw]
    exact ⟨dedupGo_pairwise [] _, dedupGo_sublist [] _,
      fun r hr => dedupGo_complete hr (by simp),
      fun r hr => dedupGo_first hr⟩

/-! ## Entity canonicalizer (`src/normalization/normalizer.py`,
`src/normalization/segmenter.py`)

The pkuseg tokenizer and the static dictionary are external collaborators;
they enter as the function parameters `cut` (Python `self.seg.cut`) and
`canon` (Python `self.dictionary.get_canonical_name`), so every theorem
below holds for the concrete instances. -/

/-- A raw entity mention as consumed by `EntityNormalizer.normalize`. -/
structure Mention where
  text : String
  entityType : String
  blockId : String
  blockType : String
deriving DecidableEq, Repr, Inhabited

/-- A mention after `_pre_match_dictionary`: the dictionary canonical name
and the dictionary-match flag are attached. -/
structure PreEntity where
  text : String
  entityType : String
  blockId : String
  blockType : String
  canonicalName : String
  isDictMatched : Bool
deriving DecidableEq, Repr, Inhabited

/-- `EntityNormalizer._pre_match_dictionary` with the dictionary lookup
abstracted as `canon` (which returns its argument on a miss, so
`is_dict_matched = (canonical_name != text)`). -/
def preMatch (canon : String → String) (ms : List Mention) : List PreEntity :=
  ms.map fun m =>
    { text := m.text, entityType := m.entityType, blockId := m.blockId,
      blockType := m.blockType, canonicalName := canon m.text,
      isDictMatched := canon m.text ≠ m.text }

/-- Update the insertion-ordered frequency table with one word
(a Python dict `word_freq[word] = word_freq.get(word, 0) + 1`). -/
def bumpWord : List (String × Nat) → String → List (String × Nat)
  | [], w => [(w, 1)]
  | (x, n) :: rest, w =>
    if x == w then (x, n + 1) :: rest else (x, n) :: bumpWord rest w

/-- Stable descending insertion by frequency (Python's stable
`sorted(key=count, reverse=True)`). -/
def insertFreq (x : String × Nat) : List (String × Nat) → List (String × Nat)
  | [] => [x]
  | y :: ys => if y.2 ≤ x.2 then x :: y :: ys else y :: insertFreq x ys

def sortFreq : List (String × Nat) → List (String × Nat)
  | [] => []
  | x :: xs => insertFreq x (sortFreq xs)

/-- `PKUSegmenter.extract_keywords`: tokenize with `cut`, drop words shorter
than 2 characters, count frequencies in first-occurrence order, sort by
descending frequency (stable), and keep the top `topK` words. -/
def extractKeywords (cut : String → List String) (text : String) (topK : Nat) :
    List String :=
  let words := (cut text).filter fun w => 2 ≤ w.length
  let freqs := words.foldl bumpWord []
  ((sortFreq freqs).take topK).map (·.1)

/-- The top-20 keyword set used by `compute_similarity` (Python
`set(self.extract_keywords(text, top_k=20))`). -/
def keywordSet (cut : String → List String) (t : String) : Finset String :=
  (extractKeywords cut t 20).toFinset

/-- `PKUSegmenter.compute_similarity`: Jaccard overlap of the top-20 keyword
sets, 0 when either set is empty (and 0 on an empty union, mirroring the
trailing `if union else 0.0`). -/
def computeSimilarity (cut : String → List String) (t1 t2 : String) : ℚ :=
  if keywordSet cut t1 = ∅ ∨ keywordSet cut t2 = ∅ then 0
  else if keywordSet cut t1 ∪ keywordSet cut t2 = ∅ then 0
  else ((keywordSet cut t1 ∩ keywordSet cut t2).card : ℚ) /
    ((keywordSet cut t1 ∪ keywordSet cut t2).card : ℚ)

/-- `EntityNormalizer._compute_entity_similarity`: 0.9 on substring
containment of the surface texts; else 0.95 when both mentions carry the
same dictionary canonical name differing from both surface texts; else the
keyword-overlap similarity. -/
def computeEntitySimilarity (cut : String → List String) (e1 e2 : PreEntity) : ℚ :=
  if containsSeq e1.text.data e2.text.data || containsSeq e2.text.data e1.text.data
  then 9/10
  else
    let ts := computeSimilarity cut e1.text e2.text
    if e1.canonicalName = e2.canonicalName ∧ e1.canonicalName ≠ e1.text ∧
        e1.canonicalName ≠ e2.text then 19/20
    else ts

/-- The inner loop of `_cluster_same_type` absorbing later unclustered
mentions: `j` ranges over all indices but skips `j ≤ i` and used ones;
a mention is absorbed when its similarity to the cluster opener is at least
the 0.6 threshold, and is then immediately marked used. -/
def absorb (sim : PreEntity → PreEntity → ℚ) (ents : List PreEntity)
    (e1 : PreEntity) (i : Nat) :
    List Nat → List Nat → List Nat × List Nat
  | [], used => ([], used)
  | j :: js, used =>
    if j ≤ i ∨ j ∈ used then absorb sim ents e1 i js used
    else if (3/5 : ℚ) ≤ sim e1 (ents.getD j default) then
      let (cs, u) := absorb sim ents e1 i js (j :: used)
      (j :: cs, u)
    else absorb sim ents e1 i js used

/-- The outer loop of `_cluster_same_type`: open a cluster at each unused
index in order. -/
def outerLoop (sim : PreEntity → PreEntity → ℚ) (ents : List PreEntity) :
    List Nat → List Nat → List (List Nat)
  | [], _ => []
  | i :: is, used =>
    if i ∈ used then outerLoop sim ents is used
    else
      let r := absorb sim ents (ents.getD i default) i (List.range ents.length)
        (i :: used)
      (i :: r.1) :: outerLoop sim ents is r.2

/-- `EntityNormalizer._cluster_same_type`. -/
def clusterSameType (sim : PreEntity → PreEntity → ℚ) (ents : List PreEntity) :
    List (List PreEntity) :=
  (outerLoop sim ents (List.range ents.length) []).map fun idxs =>
    idxs.map fun j => ents.getD j default

/-- Grouping by `entity_type` (Python `defaultdict(list)`): groups appear in
first-occurrence order of their type, each group in original order. -/
def groupByType : List PreEntity → List (List PreEntity)
  | [] => []
  | e :: rest =>
    (e :: rest.filter fun x => x.entityType == e.entityType) ::
      groupByType (rest.filter fun x => !(x.entityType == e.entityType))
termination_by l => l.length
decreasing_by
  simp only [List.length_cons]
  exact Nat.lt_succ_of_le (List.length_filter_le _ _)

/-- `EntityNormalizer._cluster_by_similarity`: group by entity type, then
cluster each group with `_compute_entity_similarity`. -/
def clusterBySimilarity (cut : String → List String) (ents : List PreEntity) :
    List (List PreEntity) :=
  ((groupByType ents).map
    (clusterSameType (computeEntitySimilarity cut))).flatten

/-! ### C7: clustering is a partition -/

theorem absorb_spec (sim : PreEntity → PreEntity → ℚ) (ents : List PreEntity)
    (e1 : PreEntity) (i : Nat) :
    ∀ (js used : List Nat),
      (absorb sim ents e1 i js used).2.Perm
          ((absorb sim ents e1 i js used).1 ++ used) ∧
        (absorb sim ents e1 i js used).1.Nodup ∧
        ∀ c ∈ (absorb sim ents e1 i js used).1, c ∈ js ∧ i < c ∧ c ∉ used := by
  intro js
  induction js with
  | nil =>
    intro used
    exact ⟨List.Perm.refl _, List.nodup_nil, fun c hc => absurd hc (by simp [absorb])⟩
  | cons j js ih =>
    intro used
    unfold absorb
    by_cases h1 : j ≤ i ∨ j ∈ used
    · rw [if_pos h1]
      obtain ⟨hp, hnd, hmem⟩ := ih used
      exact ⟨hp, hnd, fun c hc =>
        ⟨List.mem_cons_of_mem _ (hmem c hc).1, (hmem c hc).2.1, (hmem c hc).2.2⟩⟩
    · rw [if_neg h1]
      by_cases h2 : (3/5 : ℚ) ≤ sim e1 (ents.getD j default)
      · rw [if_pos h2]
        obtain ⟨hp, hnd, hmem⟩ := ih (j :: used)
        rcases hab : absorb sim ents e1 i js (j :: used) with ⟨cs, u⟩
        rw [hab] at hp hnd hmem
        refine ⟨?_, ?_, ?_⟩
        · exact hp.trans List.perm_middle
        · refine List.nodup_cons.mpr ⟨?_, hnd⟩
          intro hj
          exact (hmem j hj).2.2 (List.mem_cons_self _ _)
        · intro c hc
          rcases List.mem_cons.mp hc with rfl | hc
          · exact ⟨List.mem_cons_self _ _,
              Nat.lt_of_not_le fun h => h1 (Or.inl h),
              fun h => h1 (Or.inr h)⟩
          · obtain ⟨hjs, hlt, hnu⟩ := hmem c hc
            exact ⟨List.mem_cons_of_mem _ hjs, hlt,
              fun h => hnu (List.mem_cons_of_mem _ h)⟩
      · rw [if_neg h2]
        obtain ⟨hp, hnd, hmem⟩ := ih used
        exact ⟨hp, hnd, fun c hc =>
          ⟨List.mem_cons_of_mem _ (hmem c hc).1, (hmem c hc).2.1, (hmem c hc).2.2⟩⟩

theorem outerLoop_flatten_perm (sim : PreEntity → PreEntity → ℚ)
    (ents : List PreEntity) :
    ∀ (is used : List Nat), is.Nodup →
      (∀ j, j < ents.length → j ∈ is ∨ j ∈ used) →
      (outerLoop sim ents is used).flatten.Perm
        (is.filter fun x => decide (x ∉ used)) := by
  intro is
  induction is with
  | nil =>
    intro used _ _
    exact List.Perm.refl _
  | cons i is ih =>
    intro used hnd hclose
    have hndtail := (List.nodup_cons.mp hnd).2
    have hihead : i ∉ is := (List.nodup_cons.mp hnd).1
    unfold outerLoop
    by_cases hi : i ∈ used
    · rw [if_pos hi]
      have hpi : (decide (i ∉ used)) = false := decide_eq_false (not_not_intro hi)
      rw [List.filter_cons, hpi]
      simp only [Bool.false_eq_true, if_false]
      refine ih used hndtail fun j hj => ?_
      rcases hclose j hj with hin | hu
      · rcases List.mem_cons.mp hin with rfl | h
        · exact Or.inr hi
        · exact Or.inl h
      · exact Or.inr hu
    · rw [if_neg hi]
      rcases hab : absorb sim ents (ents.getD i default) i
          (List.range ents.length) (i :: used) with ⟨cs, u⟩
      obtain ⟨hperm, hndcs, hmemcs⟩ := absorb_spec sim ents (ents.getD i default) i
        (List.range ents.length) (i :: used)
      rw [hab] at hperm hndcs hmemcs
      have hcs_lt : ∀ c ∈ cs, c < ents.length := fun c hc =>
        List.mem_range.mp (hmemcs c hc).1
      have hcs_ne_i : ∀ c ∈ cs, c ≠ i := fun c hc he =>
        (hmemcs c hc).2.2 (he ▸ List.mem_cons_self _ _)
      have hcs_not_used : ∀ c ∈ cs, c ∉ used := fun c hc hu =>
        (hmemcs c hc).2.2 (List.mem_cons_of_mem _ hu)
      have hcs_sub : ∀ c ∈ cs, c ∈ is := by
        intro c hc
        rcases hclose c (hcs_lt c hc) with hin | hu
        · rcases List.mem_cons.mp hin with rfl | h
          · exact absurd rfl (hcs_ne_i c hc)
          · exact h
        · exact absurd hu (hcs_not_used c hc)
      have hmem_u : ∀ x, x ∈ u ↔ (x ∈ cs ∨ x = i ∨ x ∈ used) := by
        intro x
        rw [hperm.mem_iff, List.mem_append, List.mem_cons]
      have hclose' : ∀ j, j < ents.length → j ∈ is ∨ j ∈ u := by
        intro j hj
        rcases hclose j hj with hin | hu
        · rcases List.mem_cons.mp hin with rfl | h
          · exact Or.inr ((hmem_u j).mpr (Or.inr (Or.inl rfl)))
          · exact Or.inl h
        · exact Or.inr ((hmem_u j).mpr (Or.inr (Or.inr hu)))
      have hih := ih u hndtail hclose'
      have hpi : (decide (i ∉ used)) = true := decide_eq_true hi
      rw [List.filter_cons, hpi, if_pos rfl]
      show List.Perm ((i :: cs) ++ (outerLoop sim ents is u).flatten)
        (i :: is.filter fun x => decide (x ∉ used))
      rw [List.cons_append]
      refine List.Perm.cons i ?_
      -- the filtered remainder splits into the absorbed indices and the rest
      have hsplitA : is.filter (fun x => decide (x ∉ u)) =
          is.filter fun x => decide (x ∈ cs) = false && decide (x ∉ used) := by
        refine List.filter_congr fun x hx => ?_
        have hxi : x ≠ i := fun he => hihead (he ▸ hx)
        by_cases hxu : x ∈ u
        · have := (hmem_u x).mp hxu
          rcases this with h | h | h
          · simp [hxu, h]
          · exact absurd h hxi
          · simp [hxu, h]
        · have hx' := (hmem_u x).not.mp hxu
          push_neg at hx'
          simp [hxu, hx'.1, hx'.2.2]
      have hsplitB : List.Perm
          ((is.filter fun x => decide (x ∉ used)).filter
              (fun x => decide (x ∈ cs)) ++
            (is.filter fun x => decide (x ∉ used)).filter
              (fun x => !decide (x ∈ cs)))
          (is.filter fun x => decide (x ∉ used)) :=
        List.filter_append_perm _ _
      have hfilter1 : List.Perm ((is.filter fun x => decide (x ∉ used)).filter
          (fun x => decide (x ∈ cs))) cs := by
        rw [List.filter_filter]
        refine (List.perm_ext_iff_of_nodup
          (hndtail.filter _) hndcs).mpr fun a => ?_
        simp only [List.mem_filter, Bool.and_eq_true, decide_eq_true_eq]
        constructor
        · exact fun h => h.2.1
        · intro h
          exact ⟨hcs_sub a h, h, hcs_not_used a h⟩
      have hfilter2 : (is.filter fun x => decide (x ∉ used)).filter
          (fun x => !decide (x ∈ cs)) =
          is.filter fun x => decide (x ∉ u) := by
        rw [List.filter_filter, hsplitA]
        refine List.filter_congr fun x hx => ?_
        by_cases hxc : x ∈ cs
        · simp [hxc]
        · simp [hxc]
      rw [← hfilter2] at hih
      exact ((List.Perm.append_left cs hih).trans
        (List.Perm.append_right _ hfilter1.symm)).trans hsplitB

theorem range_map_getD (l : List PreEntity) :
    (List.range l.length).map (fun j => l.getD j default) = l := by
  induction l with
  | nil => rfl
  | cons a l ih =>
    rw [List.length_cons, List.range_succ_eq_map, List.map_cons, List.map_map]
    have h2 : (List.range l.length).map
        ((fun j => (a :: l).getD j default) ∘ Nat.succ) =
        (List.range l.length).map (fun j => l.getD j default) := rfl
    rw [h2, ih]
    rfl

theorem clusterSameType_flatten_perm (sim : PreEntity → PreEntity → ℚ)
    (ents : List PreEntity) : (clusterSameType sim ents).flatten.Perm ents := by
  unfold clusterSameType
  rw [← List.map_flatten]
  have houter := outerLoop_flatten_perm sim ents (List.range ents.length) []
    (List.nodup_range _) (fun j hj => Or.inl (List.mem_range.mpr hj))
  have hfil : (List.range ents.length).filter (fun x => decide (x ∉ ([] : List Nat))) =
      List.range ents.length := by
    refine List.filter_eq_self.mpr fun x _ => ?_
    simp
  rw [hfil] at houter
  have := houter.map fun j => ents.getD j default
  rwa [range_map_getD] at this

theorem outerLoop_mem_lt (sim : PreEntity → PreEntity → ℚ) (ents : List PreEntity) :
    ∀ (is used : List Nat), (∀ x ∈ is, x < ents.length) →
      ∀ cl ∈ outerLoop sim ents is used, ∀ j ∈ cl, j < ents.length := by
  intro is
  induction is with
  | nil => intro used _ cl hcl; cases hcl
  | cons i is ih =>
    intro used hlt cl hcl j hj
    unfold outerLoop at hcl
    by_cases hi : i ∈ used
    · rw [if_pos hi] at hcl
      exact ih used (fun x hx => hlt x (List.mem_cons_of_mem _ hx)) cl hcl j hj
    · rw [if_neg hi] at hcl
      rcases hab : absorb sim ents (ents.getD i default) i
          (List.range ents.length) (i :: used) with ⟨cs, u⟩
      rw [hab] at hcl
      rcases List.mem_cons.mp hcl with rfl | htail
      · rcases List.mem_cons.mp hj with rfl | hjcs
        · exact hlt j (List.mem_cons_self _ _)
        · obtain ⟨h, _, _⟩ := absorb_spec sim ents (ents.getD i default) i
            (List.range ents.length) (i :: used)
          rw [hab] at h
          obtain ⟨-, -, hmem⟩ :=
            (absorb_spec sim ents (ents.getD i default) i
              (List.range ents.length) (i :: used))
          rw [hab] at hmem
          exact List.mem_range.mp (hmem j hjcs).1
      · exact ih u (fun x hx => hlt x (List.mem_cons_of_mem _ hx)) cl htail j hj

theorem clusterSameType_mem (sim : PreEntity → PreEntity → ℚ)
    (ents : List PreEntity) :
    ∀ cl ∈ clusterSameType sim ents, ∀ x ∈ cl, x ∈ ents := by
  intro cl hcl x hx
  unfold clusterSameType at hcl
  obtain ⟨idxs, hidxs, rfl⟩ := List.mem_map.mp hcl
  obtain ⟨j, hj, rfl⟩ := List.mem_map.mp hx
  have hjlt : j < ents.length :=
    outerLoop_mem_lt sim ents (List.range ents.length) []
      (fun x hx => List.mem_range.mp hx) idxs hidxs j hj
  rw [List.getD_eq_getElem _ _ hjlt]
  exact List.getElem_mem _

theorem groupByType_flatten_perm (l : List PreEntity) :
    (groupByType l).flatten.Perm l := by
  induction l using groupByType.induct with
  | case1 =>
    rw [groupByType]
    exact List.Perm.nil
  | case2 e rest ih =>
    rw [groupByType, List.flatten_cons, List.cons_append]
    refine List.Perm.cons e ?_
    exact (List.Perm.append_left _ ih).trans
      (List.filter_append_perm (fun x => x.entityType == e.entityType) rest)

theorem groupByType_homog (l : List PreEntity) :
    ∀ g ∈ groupByType l, ∀ x ∈ g, ∀ y ∈ g, x.entityType = y.entityType := by
  induction l using groupByType.induct with
  | case1 =>
    rw [groupByType]
    intro g hg
    cases hg
  | case2 e rest ih =>
    rw [groupByType]
    intro g hg x hx y hy
    rcases List.mem_cons.mp hg with rfl | htail
    · have htype : ∀ z ∈ e :: rest.filter fun x => x.entityType == e.entityType,
          z.entityType = e.entityType := by
        intro z hz
        rcases List.mem_cons.mp hz with rfl | hzf
        · rfl
        · have hz2 : (z.entityType == e.entityType) = true :=
            (List.mem_filter.mp hzf).2
          exact beq_iff_eq.mp hz2
      rw [htype x hx, htype y hy]
    · exact ih g htail x hx y hy

theorem flatten_map_perm {α : Type} (f : List α → List α) (L : List (List α))
    (h : ∀ g ∈ L, (f g).Perm g) : (L.map f).flatten.Perm L.flatten := by
  induction L with
  | nil => exact List.Perm.refl _
  | cons g L ih =>
    rw [List.map_cons, List.flatten_cons, List.flatten_cons]
    exact List.Perm.append (h g (List.mem_cons_self _ _))
      (ih fun g' hg' => h g' (List.mem_cons_of_mem _ hg'))

/-- C7: the canonicalizer's clustering is a partition of its input: the
clusters' concatenation is a permutation of the pre-matched mention list
(every mention lands in exactly one cluster), the cluster sizes sum to the
number of input mentions, and no cluster mixes two entity types. -/
theorem c7_clustering_partition (cut : String → List String)
    (canon : String → String) (mentions : List Mention) :
    (clusterBySimilarity cut (preMatch canon mentions)).flatten.Perm
        (preMatch canon mentions) ∧
      ((clusterBySimilarity cut (preMatch canon mentions)).map List.length).sum =
        mentions.length ∧
      ∀ c ∈ clusterBySimilarity cut (preMatch canon mentions),
        ∀ a ∈ c, ∀ b ∈ c, a.entityType = b.entityType := by
  have hflat : (clusterBySimilarity cut (preMatch canon mentions)).flatten.Perm
      (preMatch canon mentions) := by
    unfold clusterBySimilarity
    rw [List.flatten_flatten, List.map_map]
    exact (flatten_map_perm
        (List.flatten ∘ clusterSameType (computeEntitySimilarity cut))
        (groupByType (preMatch canon mentions))
        (fun g _ => clusterSameType_flatten_perm (computeEntitySimilarity cut) g)).trans
      (groupByType_flatten_perm _)
  refine ⟨hflat, ?_, ?_⟩
  · rw [← List.length_flatten, hflat.length_eq]
    exact List.length_map _ _
  · intro c hc a ha b hb
    unfold clusterBySimilarity at hc
    obtain ⟨gl, hgl, hcgl⟩ := List.mem_flatten.mp hc
    obtain ⟨g, hg, rfl⟩ := List.mem_map.mp hgl
    have hag : a ∈ g := clusterSameType_mem _ g c hcgl a ha
    have hbg : b ∈ g := clusterSameType_mem _ g c hcgl b hb
    exact groupByType_homog (preMatch canon mentions) g hg a hag b hbg

/-! ### C10: the pairwise similarity formula -/

/-- The similarity as worded by the specification (refinement target for
C10): 0.9 if one surface text is a substring of the other; otherwise 0.95
if both mentions have the same dictionary canonical name and that name
differs from both surface texts; otherwise the Jaccard overlap of their
extracted keyword sets. -/
def specSimilarity (cut : String → List String) (a b : PreEntity) : ℚ :=
  if containsSeq a.text.data b.text.data || containsSeq b.text.data a.text.data
  then 9/10
  else if a.canonicalName = b.canonicalName ∧ a.canonicalName ≠ a.text ∧
      b.canonicalName ≠ b.text then 19/20
  else computeSimilarity cut a.text b.text

/-- C10: for mentions of the same entity type (the only pairs clustering
compares — `clusterBySimilarity` applies `computeEntitySimilarity` within
one type group), the similarity computed by `_compute_entity_similarity`
equals the spec's formula, and the keyword-overlap fallback is a Jaccard
score in `[0, 1]`. -/
theorem c10_similarity_formula (cut : String → List String) (a b : PreEntity)
    (h : a.entityType = b.entityType) :
    computeEntitySimilarity cut a b = specSimilarity cut a b ∧
      0 ≤ computeSimilarity cut a.text b.text ∧
      computeSimilarity cut a.text b.text ≤ 1 := by
  refine ⟨?_, ?_, ?_⟩
  · unfold computeEntitySimilarity specSimilarity
    by_cases h1 : (containsSeq a.text.data b.text.data ||
        containsSeq b.text.data a.text.data) = true
    · rw [if_pos h1, if_pos h1]
    · rw [if_neg h1, if_neg h1]
      refine if_congr ?_ rfl rfl
      constructor
      · rintro ⟨hc, h2, h3⟩
        exact ⟨hc, h2, by rw [← hc]; exact h3⟩
      · rintro ⟨hc, h2, h3⟩
        exact ⟨hc, h2, by rw [hc]; exact h3⟩
  · unfold computeSimilarity
    by_cases h1 : keywordSet cut a.text = ∅ ∨ keywordSet cut b.text = ∅
    · rw [if_pos h1]
    · rw [if_neg h1]
      by_cases h2 : keywordSet cut a.text ∪ keywordSet cut b.text = ∅
      · rw [if_pos h2]
      · rw [if_neg h2]
        exact div_nonneg (Nat.cast_nonneg _) (Nat.cast_nonneg _)
  · unfold computeSimilarity
    by_cases h1 : keywordSet cut a.text = ∅ ∨ keywordSet cut b.text = ∅
    · rw [if_pos h1]
      norm_num
    · rw [if_neg h1]
      by_cases h2 : keywordSet cut a.text ∪ keywordSet cut b.text = ∅
      · rw [if_pos h2]
        norm_num
      · rw [if_neg h2]
        have hpos : (0 : ℚ) <
            ((keywordSet cut a.text ∪ keywordSet cut b.text).card : ℚ) := by
          have := Finset.card_pos.mpr (Finset.nonempty_iff_ne_empty.mpr h2)
          exact_mod_cast this
        rw [div_le_one hpos]
        exact_mod_cast Finset.card_le_card Finset.inter_subset_union

/-- Witness for `c10_similarity_formula` on the spec's own clustering
example (`张三` and `原告张三`, both of type Party). -/
theorem c10_similarity_formula_witness :
    ({ text := "张三", entityType := "Party", blockId := "b1", blockType := "FACT",
        canonicalName := "张三", isDictMatched := false } : PreEntity).entityType =
      ({ text := "原告张三", entityType := "Party", blockId := "b1",
          blockType := "FACT", canonicalName := "原告张三",
          isDictMatched := false } : PreEntity).entityType ∧
      (computeEntitySimilarity (fun _ => [])
          { text := "张三", entityType := "Party", blockId := "b1",
            blockType := "FACT", canonicalName := "张三", isDictMatched := false }
          { text := "原告张三", entityType := "Party", blockId := "b1",
            blockType := "FACT", canonicalName := "原告张三",
            isDictMatched := false } =
        specSimilarity (fun _ => [])
          { text := "张三", entityType := "Party", blockId := "b1",
            blockType := "FACT", canonicalName := "张三", isDictMatched := false }
          { text := "原告张三", entityType := "Party", blockId := "b1",
            blockType := "FACT", canonicalName := "原告张三",
            isDictMatched := false } ∧
        0 ≤ computeSimilarity (fun _ => []) "张三" "原告张三" ∧
        computeSimilarity (fun _ => []) "张三" "原告张三" ≤ 1) :=
  ⟨rfl, c10_similarity_formula (fun _ => []) _ _ rfl⟩

end LegalKG
